import Mathlib

/-!
Verification development for the deno_kv_fs chunked file store
(src/mod.ts).  The TypeScript source is shallowly embedded:

* JS strings are modelled as lists of Unicode scalar values (`List Nat`),
  a path (`string[]`) as a list of such lists;
* byte sequences (`Uint8Array`) as `List Nat`;
* the per-URI chunk key range `("deno_kv_fs", "chunks", uri, i)` as a
  sorted association list from the 1-based index `i` to the chunk bytes;
* the engine (class `DenoKvFs`) as a state record holding the in-flight
  maps `savingFiles`, `deletingFiles`, `clientsReqsMap` and a KV snapshot;
  thrown JS exceptions are modelled with `Except`.

Wall-clock behaviour (the chunksPerSecond / maxDirEntriesPerSecond
throttles and the progress-emission pulses tied to 1-second windows) is
not modelled: it changes timings and emitted progress snapshots only,
never the returned values or the stored data considered here.
-/

set_option autoImplicit false

namespace KvFs

/-! ## Path codec (mod.ts lines 162-176)

`pathToURIComponent` percent-encodes each segment with the builtin
`encodeURIComponent` and joins with "/"; `URIComponentToPath` splits on
"/" and applies `decodeURIComponent`.  The two builtins are modelled at
the code-point level below; `decodeURIComponent` throws `URIError` on
malformed input, modelled by `Option`. -/

/-- A valid Unicode scalar value (what a well-formed JS string element
decodes to): below 0x110000 and not a surrogate. -/
def isScalar (n : Nat) : Prop := n < 1114112 ∧ (n < 55296 ∨ 57343 < n)

instance (n : Nat) : Decidable (isScalar n) := by unfold isScalar; infer_instance

/-- The characters `encodeURIComponent` leaves unescaped:
ASCII alphanumerics and - _ . ! ~ * apostrophe ( ). -/
def isUnreserved (n : Nat) : Bool :=
  decide ((65 ≤ n ∧ n ≤ 90) ∨ (97 ≤ n ∧ n ≤ 122) ∨ (48 ≤ n ∧ n ≤ 57) ∨
    n = 45 ∨ n = 95 ∨ n = 46 ∨ n = 33 ∨ n = 126 ∨ n = 42 ∨ n = 39 ∨ n = 40 ∨ n = 41)

/-- UTF-8 encoding of one Unicode scalar value. -/
def utf8Bytes (n : Nat) : List Nat :=
  if n < 128 then [n]
  else if n < 2048 then [192 + n / 64, 128 + n % 64]
  else if n < 65536 then [224 + n / 4096, 128 + n / 64 % 64, 128 + n % 64]
  else [240 + n / 262144, 128 + n / 4096 % 64, 128 + n / 64 % 64, 128 + n % 64]

/-- Uppercase hex digit character code for a value below 16. -/
def hexDigit (n : Nat) : Nat := if n < 10 then 48 + n else 55 + n

/-- One percent-escape, e.g. byte 47 becomes "%2F" (37 is the percent sign). -/
def encByte (b : Nat) : List Nat := [37, hexDigit (b / 16), hexDigit (b % 16)]

/-- `encodeURIComponent` on a single code point. -/
def encodeChar (n : Nat) : List Nat :=
  if isUnreserved n then [n] else (utf8Bytes n).flatMap encByte

/-- `encodeURIComponent` on a whole string. -/
def encodeURIComponent (s : List Nat) : List Nat := s.flatMap encodeChar

/-- Numeric value of a hex digit character, `none` if not a hex digit. -/
def hexVal (c : Nat) : Option Nat :=
  if 48 ≤ c ∧ c ≤ 57 then some (c - 48)
  else if 65 ≤ c ∧ c ≤ 70 then some (c - 55)
  else if 97 ≤ c ∧ c ≤ 102 then some (c - 87)
  else none

/-- Parse one percent escape "%XX" from the head of the input; on
success return the byte value and the remaining input. -/
def readEscByte : List Nat → Option (Nat × List Nat)
  | 37 :: h :: l :: rest =>
    match hexVal h, hexVal l with
    | some hv, some lv => some (hv * 16 + lv, rest)
    | _, _ => none
  | _ => none

/-- Parse one full UTF-8 escape sequence (1 to 4 percent escapes) from
the head of the input and validate it as ECMA-262 Decode does: the
continuation bytes must be 10xxxxxx, the value must not be an overlong
form, a surrogate, or beyond 0x10FFFF.  Returns the decoded code point
and the remaining input. -/
def readEscSeq (s : List Nat) : Option (Nat × List Nat) :=
  match readEscByte s with
  | none => none
  | some (b, r1) =>
    if b < 128 then some (b, r1)
    else if b < 192 then none
    else if b < 224 then
      match readEscByte r1 with
      | none => none
      | some (b1, r2) =>
        let v := (b - 192) * 64 + (b1 - 128)
        if 128 ≤ b1 ∧ b1 < 192 ∧ 128 ≤ v then some (v, r2) else none
    else if b < 240 then
      match readEscByte r1 with
      | none => none
      | some (b1, r2) =>
        match readEscByte r2 with
        | none => none
        | some (b2, r3) =>
          let v := (b - 224) * 4096 + (b1 - 128) * 64 + (b2 - 128)
          if 128 ≤ b1 ∧ b1 < 192 ∧ 128 ≤ b2 ∧ b2 < 192 ∧ 2048 ≤ v ∧
              (v < 55296 ∨ 57343 < v) then
            some (v, r3)
          else none
    else if b < 248 then
      match readEscByte r1 with
      | none => none
      | some (b1, r2) =>
        match readEscByte r2 with
        | none => none
        | some (b2, r3) =>
          match readEscByte r3 with
          | none => none
          | some (b3, r4) =>
            let v := (b - 240) * 262144 + (b1 - 128) * 4096 + (b2 - 128) * 64 + (b3 - 128)
            if 128 ≤ b1 ∧ b1 < 192 ∧ 128 ≤ b2 ∧ b2 < 192 ∧ 128 ≤ b3 ∧ b3 < 192 ∧
                65536 ≤ v ∧ v < 1114112 then
              some (v, r4)
            else none
    else none

theorem readEscByte_length (s : List Nat) (b : Nat) (r : List Nat)
    (h : readEscByte s = some (b, r)) : r.length + 3 = s.length := by
  unfold readEscByte at h
  split at h
  · split at h
    · injection h with h
      obtain ⟨h1, h2⟩ := Prod.mk.injEq .. ▸ h
      subst h2
      simp
    · exact absurd h (by simp)
  · exact absurd h (by simp)

theorem readEscSeq_length (s : List Nat) (v : Nat) (r : List Nat)
    (h : readEscSeq s = some (v, r)) : r.length < s.length := by
  unfold readEscSeq at h
  split at h
  · exact absurd h (by simp)
  · rename_i b r1 heq1
    have l1 := readEscByte_length _ _ _ heq1
    split at h
    · injection h with h
      obtain ⟨h1, h2⟩ := Prod.mk.injEq .. ▸ h
      subst h2
      omega
    · split at h
      · exact absurd h (by simp)
      · split at h
        · split at h
          · exact absurd h (by simp)
          · rename_i b1 r2 heq2
            have l2 := readEscByte_length _ _ _ heq2
            simp only [] at h
            split at h
            · injection h with h
              obtain ⟨h1, h2⟩ := Prod.mk.injEq .. ▸ h
              subst h2
              omega
            · exact absurd h (by simp)
        · split at h
          · split at h
            · exact absurd h (by simp)
            · rename_i b1 r2 heq2
              have l2 := readEscByte_length _ _ _ heq2
              split at h
              · exact absurd h (by simp)
              · rename_i b2 r3 heq3
                have l3 := readEscByte_length _ _ _ heq3
                simp only [] at h
                split at h
                · injection h with h
                  obtain ⟨h1, h2⟩ := Prod.mk.injEq .. ▸ h
                  subst h2
                  omega
                · exact absurd h (by simp)
          · split at h
            · split at h
              · exact absurd h (by simp)
              · rename_i b1 r2 heq2
                have l2 := readEscByte_length _ _ _ heq2
                split at h
                · exact absurd h (by simp)
                · rename_i b2 r3 heq3
                  have l3 := readEscByte_length _ _ _ heq3
                  split at h
                  · exact absurd h (by simp)
                  · rename_i b3 r4 heq4
                    have l4 := readEscByte_length _ _ _ heq4
                    simp only [] at h
                    split at h
                    · injection h with h
                      obtain ⟨h1, h2⟩ := Prod.mk.injEq .. ▸ h
                      subst h2
                      omega
                    · exact absurd h (by simp)
            · exact absurd h (by simp)

/-- `decodeURIComponent`: percent-escapes are decoded to bytes, grouped
into UTF-8 sequences and validated (ECMA-262 Decode); any malformed
escape, truncated sequence, overlong form, surrogate or out-of-range
value throws `URIError`, modelled as `none`.  Literal characters pass
through. -/
def decodeURIChars (s : List Nat) : Option (List Nat) :=
  match s with
  | [] => some []
  | c :: rest =>
    if c = 37 then
      match h1 : readEscSeq (c :: rest) with
      | some (v, rest2) => (decodeURIChars rest2).map (v :: ·)
      | none => none
    else (decodeURIChars rest).map (c :: ·)
termination_by s.length
decreasing_by
  · exact readEscSeq_length _ _ _ h1
  · simp

/-- `Array.prototype.join` with a one-character separator. -/
def joinSep (sep : Nat) : List (List Nat) → List Nat
  | [] => []
  | [s] => s
  | s :: rest => s ++ sep :: joinSep sep rest

/-- Accumulating worker for `splitSep`. -/
def splitSepAux (sep : Nat) : List Nat → List Nat → List (List Nat)
  | [], acc => [acc.reverse]
  | c :: rest, acc =>
    if c = sep then acc.reverse :: splitSepAux sep rest []
    else splitSepAux sep rest (c :: acc)

/-- `String.prototype.split` with a one-character separator; note the JS
behaviour that splitting the empty string yields a list holding one
empty string. -/
def splitSep (sep : Nat) (s : List Nat) : List (List Nat) := splitSepAux sep s []

/-- mod.ts lines 162-168: percent-encode each segment, join with "/". -/
def pathToURIComponent (path : List (List Nat)) : List Nat :=
  joinSep 47 (path.map encodeURIComponent)

/-- mod.ts lines 169-176: split on "/" and decode each piece (the JS
code would throw `URIError` on a malformed piece, hence `Option`). -/
def URIComponentToPath (uri : List Nat) : Option (List (List Nat)) :=
  (splitSep 47 uri).mapM decodeURIChars

/-! ### Codec lemmas -/

theorem hexVal_hexDigit (x : Nat) (h : x < 16) : hexVal (hexDigit x) = some x := by
  interval_cases x <;> rfl

theorem decodeURIChars_cons_ne (c : Nat) (rest : List Nat) (hc : c ≠ 37) :
    decodeURIChars (c :: rest) = (decodeURIChars rest).map (c :: ·) := by
  rw [decodeURIChars, if_neg hc]

theorem readEscByte_encByte (b : Nat) (hb : b < 256) (t : List Nat) :
    readEscByte (encByte b ++ t) = some (b, t) := by
  have h1 : hexVal (hexDigit (b / 16)) = some (b / 16) := hexVal_hexDigit _ (by omega)
  have h2 : hexVal (hexDigit (b % 16)) = some (b % 16) := hexVal_hexDigit _ (by omega)
  simp only [encByte, List.cons_append, List.nil_append, readEscByte, h1, h2]
  have : b / 16 * 16 + b % 16 = b := by omega
  rw [this]

/-- Parsing the UTF-8 escape sequence of a valid scalar recovers it. -/
theorem readEscSeq_utf8 (n : Nat) (hn : isScalar n) (t : List Nat) :
    readEscSeq ((utf8Bytes n).flatMap encByte ++ t) = some (n, t) := by
  obtain ⟨hlt, hsur⟩ := hn
  by_cases h1 : n < 128
  · rw [utf8Bytes, if_pos h1]
    simp only [List.flatMap_cons, List.flatMap_nil, List.append_nil]
    unfold readEscSeq
    rw [readEscByte_encByte n (by omega)]
    simp only [if_pos h1]
  · by_cases h2 : n < 2048
    · rw [utf8Bytes, if_neg h1, if_pos h2]
      simp only [List.flatMap_cons, List.flatMap_nil, List.append_nil, List.append_assoc]
      unfold readEscSeq
      rw [readEscByte_encByte _ (by omega)]
      simp only []
      rw [if_neg (by omega), if_neg (by omega), if_pos (by omega)]
      rw [readEscByte_encByte _ (by omega)]
      simp only []
      rw [if_pos (by refine ⟨by omega, by omega, by omega⟩)]
      have : (192 + n / 64 - 192) * 64 + (128 + n % 64 - 128) = n := by omega
      rw [this]
    · by_cases h3 : n < 65536
      · rw [utf8Bytes, if_neg h1, if_neg h2, if_pos h3]
        simp only [List.flatMap_cons, List.flatMap_nil, List.append_nil, List.append_assoc]
        unfold readEscSeq
        rw [readEscByte_encByte _ (by omega)]
        simp only []
        rw [if_neg (by omega), if_neg (by omega), if_neg (by omega), if_pos (by omega)]
        rw [readEscByte_encByte _ (by omega)]
        simp only []
        rw [readEscByte_encByte _ (by omega)]
        simp only []
        rw [if_pos (by refine ⟨by omega, by omega, by omega, by omega, by omega, by omega⟩)]
        have : (224 + n / 4096 - 224) * 4096 + (128 + n / 64 % 64 - 128) * 64 +
            (128 + n % 64 - 128) = n := by omega
        rw [this]
      · rw [utf8Bytes, if_neg h1, if_neg h2, if_neg h3]
        simp only [List.flatMap_cons, List.flatMap_nil, List.append_nil, List.append_assoc]
        unfold readEscSeq
        rw [readEscByte_encByte _ (by omega)]
        simp only []
        rw [if_neg (by omega), if_neg (by omega), if_neg (by omega), if_neg (by omega),
          if_pos (by omega)]
        rw [readEscByte_encByte _ (by omega)]
        simp only []
        rw [readEscByte_encByte _ (by omega)]
        simp only []
        rw [readEscByte_encByte _ (by omega)]
        simp only []
        rw [if_pos (by
          refine ⟨by omega, by omega, by omega, by omega, by omega, by omega, by omega,
            by omega⟩)]
        have : (240 + n / 262144 - 240) * 262144 + (128 + n / 4096 % 64 - 128) * 4096 +
            (128 + n / 64 % 64 - 128) * 64 + (128 + n % 64 - 128) = n := by omega
        rw [this]

theorem decodeURIChars_escape (tail : List Nat) (v : Nat) (r : List Nat)
    (h : readEscSeq (37 :: tail) = some (v, r)) :
    decodeURIChars (37 :: tail) = (decodeURIChars r).map (v :: ·) := by
  rw [decodeURIChars, if_pos rfl]
  split
  · rename_i v2 r2 heq
    rw [heq] at h
    injection h with h
    obtain ⟨h1, h2⟩ := Prod.mk.injEq .. ▸ h
    rw [h1, h2]
  · rename_i heq
    rw [heq] at h
    cases h

theorem utf8Bytes_ne_nil (n : Nat) : utf8Bytes n ≠ [] := by
  unfold utf8Bytes
  split
  · simp
  · split
    · simp
    · split
      · simp
      · simp

/-- Decoding the percent-encoding of one code point peels it off. -/
theorem decodeURIChars_encodeChar (n : Nat) (rest : List Nat) (hn : isScalar n) :
    decodeURIChars (encodeChar n ++ rest) = (decodeURIChars rest).map (n :: ·) := by
  by_cases hu : isUnreserved n
  · have hne : n ≠ 37 := by
      intro h; rw [h] at hu; simp [isUnreserved] at hu
    rw [encodeChar, if_pos hu, List.singleton_append, decodeURIChars_cons_ne n rest hne]
  · rw [encodeChar, if_neg hu]
    have hseq := readEscSeq_utf8 n hn rest
    obtain ⟨tail, htail⟩ : ∃ tail, (utf8Bytes n).flatMap encByte ++ rest = 37 :: tail := by
      cases hu8 : utf8Bytes n with
      | nil => exact absurd hu8 (utf8Bytes_ne_nil n)
      | cons b bs =>
        refine ⟨hexDigit (b / 16) :: hexDigit (b % 16) :: (bs.flatMap encByte ++ rest), ?_⟩
        simp [encByte]
    rw [htail]
    exact decodeURIChars_escape tail n rest (htail ▸ hseq)

/-- Decoding inverts encoding on one string segment of valid scalars. -/
theorem decodeURIChars_encodeURIComponent (s : List Nat) (hs : ∀ n ∈ s, isScalar n) :
    decodeURIChars (encodeURIComponent s) = some s := by
  induction s with
  | nil => simp [encodeURIComponent, decodeURIChars]
  | cons n t ih =>
    have : encodeURIComponent (n :: t) = encodeChar n ++ encodeURIComponent t := by
      simp [encodeURIComponent]
    rw [this, decodeURIChars_encodeChar n _ (hs n (by simp)),
      ih (fun m hm => hs m (by simp [hm]))]
    rfl

theorem utf8Bytes_lt_256 (n : Nat) (h : n < 1114112) : ∀ b ∈ utf8Bytes n, b < 256 := by
  rw [utf8Bytes]
  split
  · intro b hb
    simp at hb
    omega
  · split
    · intro b hb
      simp at hb
      rcases hb with h1 | h1 <;> omega
    · split
      · intro b hb
        simp at hb
        rcases hb with h1 | h1 | h1 <;> omega
      · intro b hb
        simp at hb
        rcases hb with h1 | h1 | h1 | h1 <;> omega

theorem encodeChar_not_slash (n : Nat) (hn : isScalar n) : 47 ∉ encodeChar n := by
  obtain ⟨hlt, -⟩ := hn
  rw [encodeChar]
  by_cases hu : isUnreserved n
  · rw [if_pos hu]
    intro hmem
    simp only [List.mem_singleton] at hmem
    rw [← hmem] at hu
    simp [isUnreserved] at hu
  · rw [if_neg hu]
    intro hmem
    rw [List.mem_flatMap] at hmem
    obtain ⟨b, hb, hmem⟩ := hmem
    have hb256 : b < 256 := utf8Bytes_lt_256 n hlt b hb
    have hdig : ∀ x : Nat, x < 16 → hexDigit x ≠ 47 := by
      intro x hx; rw [hexDigit]; split <;> omega
    simp only [encByte, List.mem_cons, List.mem_nil_iff, or_false] at hmem
    rcases hmem with h | h | h
    · omega
    · exact hdig (b / 16) (by omega) h.symm
    · exact hdig (b % 16) (by omega) h.symm

theorem encodeURIComponent_not_slash (s : List Nat) (hs : ∀ n ∈ s, isScalar n) :
    47 ∉ encodeURIComponent s := by
  intro hmem
  rw [encodeURIComponent, List.mem_flatMap] at hmem
  obtain ⟨n, hn, hmem⟩ := hmem
  exact encodeChar_not_slash n (hs n hn) hmem

theorem splitSepAux_no_sep (sep : Nat) (s t acc : List Nat) (h : sep ∉ s) :
    splitSepAux sep (s ++ t) acc = splitSepAux sep t (s.reverse ++ acc) := by
  induction s generalizing acc with
  | nil => simp
  | cons c cs ih =>
    have hc : c ≠ sep := fun he => h (he ▸ List.mem_cons_self c cs)
    rw [List.cons_append, splitSepAux, if_neg hc, ih _ (fun m => h (List.mem_cons_of_mem c m))]
    simp

theorem splitSep_no_sep (sep : Nat) (s : List Nat) (h : sep ∉ s) :
    splitSep sep s = [s] := by
  have h0 := splitSepAux_no_sep sep s [] [] h
  rw [List.append_nil] at h0
  rw [splitSep, h0, splitSepAux]
  simp

theorem splitSep_joinSep (L : List (List Nat)) (hL : L ≠ [])
    (h : ∀ s ∈ L, 47 ∉ s) : splitSep 47 (joinSep 47 L) = L := by
  induction L with
  | nil => exact absurd rfl hL
  | cons s rest ih =>
    cases rest with
    | nil =>
      have hj : joinSep 47 [s] = s := rfl
      rw [hj, splitSep_no_sep 47 s (h s (by simp))]
    | cons s2 rest2 =>
      have hj : joinSep 47 (s :: s2 :: rest2) = s ++ 47 :: joinSep 47 (s2 :: rest2) := rfl
      rw [hj, splitSep, splitSepAux_no_sep 47 s _ [] (h s (by simp))]
      rw [List.append_nil, splitSepAux, if_pos rfl]
      rw [List.reverse_reverse]
      have hrec := ih (by simp) (fun m hm => h m (by simp [hm]))
      rw [splitSep] at hrec
      rw [hrec]

/-- Round trip of the path codec on nonempty paths of valid scalars. -/
theorem URIComponentToPath_pathToURIComponent (p : List (List Nat)) (hp : p ≠ [])
    (hs : ∀ seg ∈ p, ∀ n ∈ seg, isScalar n) :
    URIComponentToPath (pathToURIComponent p) = some p := by
  rw [URIComponentToPath, pathToURIComponent]
  rw [splitSep_joinSep _ (by simpa using hp)
    (by intro s hsm; rw [List.mem_map] at hsm; obtain ⟨seg, hseg, rfl⟩ := hsm
        exact encodeURIComponent_not_slash seg (hs seg hseg))]
  clear hp
  induction p with
  | nil => rfl
  | cons seg rest ih =>
    rw [List.map_cons, List.mapM_cons]
    rw [decodeURIChars_encodeURIComponent seg (hs seg (by simp))]
    rw [ih (fun s hsm n hn => hs s (by simp [hsm]) n hn)]
    rfl

/-- C8 (amended): the path codec round-trip law
`URIComponentToPath (pathToURIComponent p) = p` holds for every
**nonempty** finite sequence of strings (of valid Unicode scalars), and
`pathToURIComponent` is injective on such sequences.  (The law and
injectivity fail at the empty sequence, see the counterexample.) -/
theorem claim8_pathCodec_roundTrip (p q : List (List Nat))
    (hp : p ≠ []) (hq : q ≠ [])
    (hsp : ∀ seg ∈ p, ∀ n ∈ seg, isScalar n)
    (hsq : ∀ seg ∈ q, ∀ n ∈ seg, isScalar n) :
    URIComponentToPath (pathToURIComponent p) = some p ∧
    (pathToURIComponent p = pathToURIComponent q → p = q) := by
  refine ⟨URIComponentToPath_pathToURIComponent p hp hsp, fun h => ?_⟩
  have h1 := URIComponentToPath_pathToURIComponent p hp hsp
  have h2 := URIComponentToPath_pathToURIComponent q hq hsq
  rw [h, h2] at h1
  injection h1 with h1
  exact h1.symm

/-- C8 counterexample: for the **empty** path the round trip returns the
one-element path holding the empty segment (because splitting the empty
string yields one empty piece in JS), and encoding is not injective
because the empty path and the path of one empty segment share the
encoding "". -/
theorem claim8_counterexample :
    URIComponentToPath (pathToURIComponent []) = some [[]] ∧
    pathToURIComponent [] = pathToURIComponent [[]] ∧
    ([] : List (List Nat)) ≠ [[]] := by
  refine ⟨?_, rfl, by simp⟩
  simp [URIComponentToPath, pathToURIComponent, joinSep, splitSep, splitSepAux,
    decodeURIChars, List.mapM_cons, List.mapM.loop]

/-- Witness for C8 on concrete nonempty paths: the two segments hold
"hi" and the three code points lowercase a, slash, percent. -/
theorem claim8_witness :
    URIComponentToPath (pathToURIComponent [[104, 105], [97, 47, 37]]) =
      some [[104, 105], [97, 47, 37]] ∧
    (pathToURIComponent [[104, 105], [97, 47, 37]] = pathToURIComponent [[104]] →
      [[104, 105], [97, 47, 37]] = [[104]]) :=
  claim8_pathCodec_roundTrip [[104, 105], [97, 47, 37]] [[104]] (by decide) (by decide)
    (by decide) (by decide)

/-! ## Chunk layout and the save pipeline, per URI

This layer models, for a single URI, the KV key range
`("deno_kv_fs", "chunks", uri, i)` as an association list sorted by the
integer index `i` (Deno KV keys are ordered, so a prefix or range scan
yields entries in index order).  The save pipeline of the source is
embedded: the chunk-writing loop shared by `#saveFromUint8Array`
(mod.ts 894-948) and `#saveFromReader` (mod.ts 823-893), followed by the
tail retraction `#retract` (mod.ts 634-672). -/

/-- mod.ts line 74. -/
def chunkSize : Nat := 65536

/-- `Number.MAX_SAFE_INTEGER`, the exclusive end of the retraction scan. -/
def maxSafeInteger : Nat := 2 ^ 53 - 1

/-- A `Uint8Array` as a list of bytes. -/
abbrev Bytes := List Nat

/-- The per-URI chunk key range, sorted by index. -/
abbrev ChunkStore := List (Nat × Bytes)

/-- mod.ts lines 77-83 (`#toChunks`): slice the array at chunkSize
boundaries; `Math.ceil(length / chunkSize)` slices in total, the i-th
being `arr.slice(i * chunkSize, i * chunkSize + chunkSize)`. -/
def toChunks (arr : Bytes) : List Bytes :=
  (List.range ((arr.length + chunkSize - 1) / chunkSize)).map
    (fun i => (arr.drop (i * chunkSize)).take chunkSize)

/-- One KV `set` at a chunk key: insert or replace in the index-sorted
association list. -/
def kvSetChunk : ChunkStore → Nat → Bytes → ChunkStore
  | [], i, v => [(i, v)]
  | (j, w) :: rest, i, v =>
    if i < j then (i, v) :: (j, w) :: rest
    else if i = j then (i, v) :: rest
    else (j, w) :: kvSetChunk rest i v

/-- mod.ts lines 634-672 (`#retract`): the paged scan with start key
`(chunks, uri, nextChunkIndex)` and end key
`(chunks, uri, MAX_SAFE_INTEGER)` deletes every chunk whose index lies
in that half-open range. -/
def retract (st : ChunkStore) (nextChunkIndex : Nat) : ChunkStore :=
  st.filter (fun e => decide (e.1 < nextChunkIndex ∨ maxSafeInteger ≤ e.1))

/-- State of the chunk-writing loop shared by `#saveFromReader`
(mod.ts 847-874) and `#saveFromUint8Array` (mod.ts 904-929):
the store so far, `sizeBytes`, `totalCount`, and whether the
"incomplete" flag has been pushed. -/
structure SaveLoopState where
  st : ChunkStore
  sizeBytes : Nat
  totalCount : Nat
  incomplete : Bool
  deriving DecidableEq

/-- The chunk-writing loop: before each chunk, if
`sizeBytes > maxFileSizeBytes` push "incomplete" and break; otherwise
put the chunk at index `totalCount + 1` and add its length to
`sizeBytes`. -/
def saveChunksLoop (maxFileSizeBytes : Nat) : List Bytes → SaveLoopState → SaveLoopState
  | [], s => s
  | chunk :: rest, s =>
    if maxFileSizeBytes < s.sizeBytes then { s with incomplete := true }
    else saveChunksLoop maxFileSizeBytes rest
      { st := kvSetChunk s.st (s.totalCount + 1) chunk
        sizeBytes := s.sizeBytes + chunk.length
        totalCount := s.totalCount + 1
        incomplete := false }

/-- The `SaveResult` of mod.ts lines 47-50 (flags and size). -/
structure SaveResult where
  flags : List String
  size : Nat
  deriving DecidableEq

/-- Common tail of both save paths (mod.ts 847-892 and 904-947): run the
chunk loop from an empty state, retract stale chunks from index
`totalCount + 1`, and return the result whose flags hold "incomplete"
exactly when the loop stopped at the size cap. -/
def runSave (chunks : List Bytes) (maxFileSizeBytes : Nat) (st : ChunkStore) :
    ChunkStore × SaveResult :=
  let s := saveChunksLoop maxFileSizeBytes chunks ⟨st, 0, 0, false⟩
  (retract s.st (s.totalCount + 1),
   ⟨if s.incomplete then ["incomplete"] else [], s.sizeBytes⟩)

/-- mod.ts lines 894-948 (`#saveFromUint8Array`); string content is
UTF-8 encoded to bytes first (mod.ts 250-254) and then follows this same
path. -/
def saveFromUint8Array (content : Bytes) (maxFileSizeBytes : Nat) (st : ChunkStore) :
    ChunkStore × SaveResult :=
  runSave (toChunks content) maxFileSizeBytes st

/-- The chunk sequence `#getChunkIter` (mod.ts 776-799) produces for a
byte stream that delivers the bytes `b` and then closes: full
65536-byte slices, plus, when the total length is an exact multiple of
65536 (including the empty stream), one final zero-length chunk,
because the loop in `#saveFromReader` only learns that the stream is
finished from one more read that returns done with no bytes. -/
def readerChunks (b : Bytes) : List Bytes :=
  toChunks b ++ (if b.length % chunkSize = 0 then [[]] else [])

/-- mod.ts lines 823-893 (`#saveFromReader`) for a stream delivering
the bytes `content` and then closing. -/
def saveFromReader (content : Bytes) (maxFileSizeBytes : Nat) (st : ChunkStore) :
    ChunkStore × SaveResult :=
  runSave (readerChunks content) maxFileSizeBytes st

/-- Key-order drain of the per-URI chunk range: the concatenation of
all chunk values the read content stream (`#contentToStream`,
mod.ts 716-775) enqueues. -/
def drainChunks (st : ChunkStore) : Bytes := (st.map Prod.snd).flatten

/-- The chunk record stored at index `i`, if any. -/
def chunkAt (st : ChunkStore) (i : Nat) : Option Bytes :=
  (st.find? (fun e => e.1 == i)).map Prod.snd

/-- KV snapshot invariant of the per-URI chunk range: scans are ordered
by index, and every stored index is a real chunk index, i.e. at least 1
(indices are 1-based) and below `MAX_SAFE_INTEGER`. -/
def ChunkInv (st : ChunkStore) : Prop :=
  st.Pairwise (fun a b => a.1 < b.1) ∧ ∀ e ∈ st, 1 ≤ e.1 ∧ e.1 < maxSafeInteger

instance (st : ChunkStore) : Decidable (ChunkInv st) := by
  unfold ChunkInv; infer_instance

/-- The canonical store holding the chunk list `cs` at consecutive
indices starting from `k`. -/
def canonFrom (k : Nat) : List Bytes → ChunkStore
  | [] => []
  | c :: cs => (k, c) :: canonFrom (k + 1) cs

/-- The prefix of the chunk list that the loop writes before the
pre-write size check stops it, starting from accumulated size `s`. -/
def writtenChunks (maxFileSizeBytes : Nat) : List Bytes → Nat → List Bytes
  | [], _ => []
  | c :: cs, s =>
    if maxFileSizeBytes < s then []
    else c :: writtenChunks maxFileSizeBytes cs (s + c.length)

/-- Total byte length of a chunk list. -/
def sumLen (cs : List Bytes) : Nat := (cs.map List.length).sum

/-- The entries of the store above index `k` (kept by a re-save that
wrote `k` chunks, until the retraction removes them). -/
def chunksAbove (k : Nat) (st : ChunkStore) : ChunkStore :=
  st.filter (fun e => decide (k < e.1))

/-! ### Chunk pipeline lemmas -/

theorem sumLen_cons (c : Bytes) (cs : List Bytes) :
    sumLen (c :: cs) = c.length + sumLen cs := by
  simp [sumLen]

theorem kvSetChunk_append (pre rest : ChunkStore) (i : Nat) (v : Bytes)
    (h : ∀ e ∈ pre, e.1 < i) :
    kvSetChunk (pre ++ rest) i v = pre ++ kvSetChunk rest i v := by
  induction pre with
  | nil => rfl
  | cons e pre ih =>
    obtain ⟨j, w⟩ := e
    have hj : j < i := h (j, w) (by simp)
    rw [List.cons_append, kvSetChunk, if_neg (by omega), if_neg (by omega),
      ih (fun e he => h e (by simp [he]))]
    rfl

theorem chunksAbove_all (k : Nat) (st : ChunkStore) (h : ∀ e ∈ st, k < e.1) :
    chunksAbove k st = st :=
  List.filter_eq_self.mpr (fun e he => by simpa using h e he)

theorem chunksAbove_cons_le (k j : Nat) (w : Bytes) (st : ChunkStore) (h : ¬k < j) :
    chunksAbove k ((j, w) :: st) = chunksAbove k st := by
  simp [chunksAbove, h]

theorem chunksAbove_cons_gt (k j : Nat) (w : Bytes) (st : ChunkStore) (h : k < j) :
    chunksAbove k ((j, w) :: st) = (j, w) :: chunksAbove k st := by
  simp [chunksAbove, h]

theorem kvSetChunk_chunksAbove (k : Nat) (v : Bytes) (st : ChunkStore)
    (hs : st.Pairwise (fun a b => a.1 < b.1)) :
    kvSetChunk (chunksAbove k st) (k + 1) v = (k + 1, v) :: chunksAbove (k + 1) st := by
  induction st with
  | nil => rfl
  | cons e st ih =>
    obtain ⟨j, w⟩ := e
    rw [List.pairwise_cons] at hs
    obtain ⟨hall, hrest⟩ := hs
    by_cases hj : j ≤ k
    · rw [chunksAbove_cons_le _ _ _ _ (by omega), chunksAbove_cons_le _ _ _ _ (by omega),
        ih hrest]
    · have hgt : ∀ e ∈ st, k + 1 < e.1 := fun e he => by
        have := hall e he; simp at this; omega
    -- the head key is above k; split on whether it is exactly k + 1
      by_cases hj2 : j = k + 1
      · subst hj2
        rw [chunksAbove_cons_gt _ _ _ _ (by omega), chunksAbove_cons_le _ _ _ _ (by omega)]
        rw [kvSetChunk, if_neg (by omega), if_pos rfl]
        rw [chunksAbove_all _ _ (fun e he => by have := hgt e he; omega),
          chunksAbove_all _ _ hgt]
      · have hj3 : k + 1 < j := by omega
        rw [chunksAbove_cons_gt _ _ _ _ (by omega), chunksAbove_cons_gt _ _ _ _ hj3]
        rw [kvSetChunk, if_pos hj3]
        have hall2 : ∀ e ∈ st, k < e.1 := fun e he => by have := hgt e he; omega
        rw [chunksAbove_all _ _ hall2, chunksAbove_all _ _ hgt]

theorem saveChunksLoop_spec (max : Nat) (st0 : ChunkStore)
    (hp : st0.Pairwise (fun a b => a.1 < b.1)) :
    ∀ (cs : List Bytes) (pre : ChunkStore) (k s : Nat), (∀ e ∈ pre, e.1 ≤ k) →
    saveChunksLoop max cs ⟨pre ++ chunksAbove k st0, s, k, false⟩ =
      ⟨pre ++ (canonFrom (k + 1) (writtenChunks max cs s) ++
         chunksAbove (k + (writtenChunks max cs s).length) st0),
       s + sumLen (writtenChunks max cs s),
       k + (writtenChunks max cs s).length,
       decide ((writtenChunks max cs s).length < cs.length)⟩ := by
  intro cs
  induction cs with
  | nil =>
    intro pre k s _
    simp [saveChunksLoop, writtenChunks, sumLen, canonFrom]
  | cons c cs ih =>
    intro pre k s hpre
    rw [saveChunksLoop]
    by_cases hmax : max < s
    · rw [if_pos hmax, writtenChunks, if_pos hmax]
      simp [sumLen, canonFrom]
    · rw [if_neg hmax]
      simp only []
      have hset : kvSetChunk (pre ++ chunksAbove k st0) (k + 1) c =
          (pre ++ [(k + 1, c)]) ++ chunksAbove (k + 1) st0 := by
        rw [kvSetChunk_append _ _ _ _ (fun e he => by have := hpre e he; omega),
          kvSetChunk_chunksAbove k c st0 hp]
        simp
      rw [hset]
      rw [ih (pre ++ [(k + 1, c)]) (k + 1) (s + c.length)
        (by intro e he
            rcases List.mem_append.mp he with h | h
            · have := hpre e h; omega
            · simp at h; subst h; simp)]
      rw [writtenChunks, if_neg hmax]
      rw [canonFrom, sumLen_cons]
      simp only [List.length_cons, List.append_assoc, List.cons_append, List.nil_append]
      rw [show k + 1 + (writtenChunks max cs (s + c.length)).length =
          k + ((writtenChunks max cs (s + c.length)).length + 1) from by omega]
      simp only [SaveLoopState.mk.injEq]
      refine ⟨by trivial, by omega, by trivial, decide_eq_decide.mpr (by omega)⟩

theorem canonFrom_keys (k : Nat) (cs : List Bytes) :
    ∀ e ∈ canonFrom k cs, k ≤ e.1 ∧ e.1 < k + cs.length := by
  induction cs generalizing k with
  | nil => simp [canonFrom]
  | cons c cs ih =>
    intro e he
    rw [canonFrom] at he
    rcases List.mem_cons.mp he with rfl | h
    · simp
    · have := ih (k + 1) e h
      simp only [List.length_cons]
      omega

theorem canonFrom_pairwise (k : Nat) (cs : List Bytes) :
    (canonFrom k cs).Pairwise (fun a b => a.1 < b.1) := by
  induction cs generalizing k with
  | nil => exact List.Pairwise.nil
  | cons c cs ih =>
    rw [canonFrom, List.pairwise_cons]
    exact ⟨fun e he => by have := (canonFrom_keys (k + 1) cs e he).1; simp; omega, ih (k + 1)⟩

theorem canonFrom_map_snd (k : Nat) (cs : List Bytes) :
    (canonFrom k cs).map Prod.snd = cs := by
  induction cs generalizing k with
  | nil => rfl
  | cons c cs ih => simp [canonFrom, ih]

theorem writtenChunks_all (max : Nat) (cs : List Bytes) (s : Nat)
    (h : s + sumLen cs ≤ max) : writtenChunks max cs s = cs := by
  induction cs generalizing s with
  | nil => rfl
  | cons c cs ih =>
    rw [sumLen_cons] at h
    rw [writtenChunks, if_neg (by omega), ih _ (by omega)]

theorem writtenChunks_gt (max : Nat) (cs : List Bytes) (s : Nat) (h : max < s) :
    writtenChunks max cs s = [] := by
  cases cs with
  | nil => rfl
  | cons c cs => rw [writtenChunks, if_pos h]

theorem writtenChunks_stop (max : Nat) (cs : List Bytes) (s : Nat)
    (h : (writtenChunks max cs s).length < cs.length) :
    max < s + sumLen (writtenChunks max cs s) := by
  induction cs generalizing s with
  | nil => simp [writtenChunks] at h
  | cons c cs ih =>
    by_cases hm : max < s
    · rw [writtenChunks_gt _ _ _ hm]
      simp [sumLen]
      omega
    · rw [writtenChunks, if_neg hm] at h ⊢
      simp only [List.length_cons, Nat.add_lt_add_iff_right] at h
      have := ih (s + c.length) h
      rw [sumLen_cons]
      omega

theorem writtenChunks_le (max : Nat) (cs : List Bytes) (s : Nat)
    (hc : ∀ c ∈ cs, c.length ≤ chunkSize) (hs : s ≤ max) :
    s + sumLen (writtenChunks max cs s) ≤ max + chunkSize := by
  induction cs generalizing s with
  | nil =>
    have : chunkSize = 65536 := rfl
    simp [writtenChunks, sumLen]
    omega
  | cons c cs ih =>
    rw [writtenChunks, if_neg (by omega), sumLen_cons]
    by_cases h2 : s + c.length ≤ max
    · have := ih (s + c.length) (fun d hd => hc d (by simp [hd])) h2
      omega
    · rw [writtenChunks_gt _ _ _ (by omega)]
      have hcl := hc c (by simp)
      simp [sumLen]
      omega

theorem runSave_spec (chunks : List Bytes) (max : Nat) (st0 : ChunkStore)
    (h0 : ChunkInv st0) :
    runSave chunks max st0 =
      (canonFrom 1 (writtenChunks max chunks 0),
       ⟨if (writtenChunks max chunks 0).length < chunks.length then ["incomplete"]
         else [], sumLen (writtenChunks max chunks 0)⟩) := by
  obtain ⟨hp, hkeys⟩ := h0
  rw [runSave]
  have hst0 : st0 = ([] : ChunkStore) ++ chunksAbove 0 st0 := by
    rw [List.nil_append, chunksAbove_all 0 st0 (fun e he => (hkeys e he).1)]
  rw [show (⟨st0, 0, 0, false⟩ : SaveLoopState) =
      ⟨[] ++ chunksAbove 0 st0, 0, 0, false⟩ from by rw [← hst0]]
  rw [saveChunksLoop_spec max st0 hp chunks [] 0 0 (by simp)]
  simp only [List.nil_append, Nat.zero_add]
  congr 1
  · rw [retract, List.filter_append]
    have h1 : (canonFrom (0 + 1) (writtenChunks max chunks 0)).filter
        (fun e => decide (e.1 < (writtenChunks max chunks 0).length + 1 ∨
          maxSafeInteger ≤ e.1)) = canonFrom 1 (writtenChunks max chunks 0) := by
      rw [show (0 + 1 : Nat) = 1 from rfl]
      apply List.filter_eq_self.mpr
      intro e he
      have := canonFrom_keys 1 _ e he
      simp only [decide_eq_true_eq]
      omega
    have h2 : (chunksAbove (writtenChunks max chunks 0).length st0).filter
        (fun e => decide (e.1 < (writtenChunks max chunks 0).length + 1 ∨
          maxSafeInteger ≤ e.1)) = [] := by
      rw [List.filter_eq_nil_iff]
      intro e he
      rw [chunksAbove, List.mem_filter] at he
      obtain ⟨hmem, habove⟩ := he
      have hk := hkeys e hmem
      simp only [decide_eq_true_eq] at habove ⊢
      omega
    rw [h1, h2, List.append_nil]
  · congr 1
    by_cases h : (writtenChunks max chunks 0).length < chunks.length
    · simp [h]
    · simp [h]

theorem toChunks_length (b : Bytes) :
    (toChunks b).length = (b.length + chunkSize - 1) / chunkSize := by
  simp [toChunks]

theorem toChunks_cons (b : Bytes) (hb : b ≠ []) :
    toChunks b = b.take chunkSize :: toChunks (b.drop chunkSize) := by
  have hlen : 1 ≤ b.length := List.length_pos.mpr hb
  unfold toChunks
  have hcount : (b.length + chunkSize - 1) / chunkSize =
      ((b.drop chunkSize).length + chunkSize - 1) / chunkSize + 1 := by
    rw [List.length_drop]
    simp only [chunkSize]
    omega
  rw [hcount, List.range_succ_eq_map, List.map_cons]
  congr 1
  rw [List.map_map]
  apply List.map_congr_left
  intro i _
  show (b.drop ((i + 1) * chunkSize)).take chunkSize =
    ((b.drop chunkSize).drop (i * chunkSize)).take chunkSize
  rw [List.drop_drop]
  congr 2
  ring

theorem toChunks_flatten (b : Bytes) : (toChunks b).flatten = b := by
  by_cases hb : b = []
  · subst hb; rfl
  · rw [toChunks_cons b hb, List.flatten_cons, toChunks_flatten (b.drop chunkSize)]
    exact List.take_append_drop _ b
termination_by b.length
decreasing_by
  have : chunkSize = 65536 := rfl
  have hlen : 1 ≤ b.length := List.length_pos.mpr hb
  simp [List.length_drop]
  omega

theorem sumLen_toChunks (b : Bytes) : sumLen (toChunks b) = b.length := by
  rw [sumLen, ← List.length_flatten, toChunks_flatten]

theorem toChunks_le_chunkSize (b : Bytes) : ∀ c ∈ toChunks b, c.length ≤ chunkSize := by
  intro c hc
  unfold toChunks at hc
  rw [List.mem_map] at hc
  obtain ⟨i, -, rfl⟩ := hc
  simp [List.length_take]

theorem toChunks_getElem? (b : Bytes) (i : Nat) (hi : i < (toChunks b).length) :
    (toChunks b)[i]? = some ((b.drop (i * chunkSize)).take chunkSize) := by
  unfold toChunks at hi ⊢
  rw [List.getElem?_map]
  rw [List.length_map, List.length_range] at hi
  rw [List.getElem?_range hi]
  rfl

theorem chunkAt_canonFrom (k : Nat) (cs : List Bytes) (i : Nat) :
    chunkAt (canonFrom k cs) i =
      if k ≤ i ∧ i < k + cs.length then cs[i - k]? else none := by
  induction cs generalizing k with
  | nil => simp [canonFrom, chunkAt]
  | cons c cs ih =>
    rw [canonFrom, chunkAt, List.find?]
    by_cases hik : i = k
    · subst hik
      simp
    · rw [show (((k, c).1 == i) : Bool) = false from by simpa using fun h => hik h.symm]
      have hrec := ih (k + 1)
      rw [chunkAt] at hrec
      rw [hrec]
      by_cases hcond : k + 1 ≤ i ∧ i < k + 1 + cs.length
      · rw [if_pos hcond, if_pos (by simp only [List.length_cons]; omega)]
        have hik2 : i - k = (i - (k + 1)) + 1 := by omega
        rw [hik2, List.getElem?_cons_succ]
      · rw [if_neg hcond, if_neg (by simp only [List.length_cons]; omega)]

/-! ### The per-path save and read view (claims C1 to C4) -/

/-- The per-path KV view used by save and read: the file record at
`("deno_kv_fs", "files", ...path)` (restricted to the fields the chunk
pipeline produces, flags and size) and the chunk range of its URI. -/
structure FsStateA where
  file : Option SaveResult
  chunks : ChunkStore
  deriving DecidableEq

/-- mod.ts save lines 248-274, byte-array content, restricted to the
per-path KV view: run the chunk pipeline, then store the record. -/
def saveA (content : Bytes) (maxFileSizeBytes : Nat) (s : FsStateA) :
    FsStateA × SaveResult :=
  let r := saveFromUint8Array content maxFileSizeBytes s.chunks
  (⟨some r.2, r.1⟩, r.2)

/-- mod.ts read lines 294-324 restricted to the per-path KV view: fetch
the record (null when absent) and attach the content stream, here
already drained in key order as `#contentToStream` enqueues it. -/
def readA (s : FsStateA) : Option (SaveResult × Bytes) :=
  s.file.map (fun f => (f, drainChunks s.chunks))

/-- C1: for every path and byte sequence `b` with
`b.length ≤ maxFileSizeBytes`, after a successful save, read returns a
record of size `b.length` (and empty flags) whose drained content
stream is exactly `b`. -/
theorem claim1_saveRead_roundTrip (b : Bytes) (max : Nat) (st : FsStateA)
    (h0 : ChunkInv st.chunks) (hb : b.length ≤ max) :
    readA (saveA b max st).1 = some (⟨[], b.length⟩, b) := by
  have hw : writtenChunks max (toChunks b) 0 = toChunks b :=
    writtenChunks_all _ _ _ (by rw [sumLen_toChunks]; omega)
  rw [saveA, saveFromUint8Array, runSave_spec _ _ _ h0, hw]
  simp only [readA, drainChunks]
  rw [canonFrom_map_snd, toChunks_flatten, sumLen_toChunks, if_neg (by omega)]
  rfl

/-- Witness for C1: three bytes, cap ten, empty prior state. -/
theorem claim1_witness :
    readA (saveA [7, 8, 9] 10 ⟨none, []⟩).1 = some (⟨[], 3⟩, [7, 8, 9]) :=
  claim1_saveRead_roundTrip [7, 8, 9] 10 ⟨none, []⟩ (by decide) (by decide)

/-- C2 (amended): after a save (with the default size cap), for every
index `i` in `1..ceil(length b / 65536)` the chunk record at `i` has
length `min 65536 (length b - (i-1)*65536)`, and no record exists at
index `ceil + 1` — for byte-array content (strings are UTF-8 encoded to
bytes and follow the same path) always, and for stream content whenever
the length is **not** an exact multiple of 65536.  For stream content at
an exact multiple (including empty), one extra zero-length chunk exists
at index `ceil + 1`, and none at `ceil + 2`. -/
theorem claim2_chunkLayout (b : Bytes) (st : ChunkStore) (h0 : ChunkInv st)
    (hb : b.length ≤ maxSafeInteger) :
    (∀ i, 1 ≤ i → i ≤ (b.length + chunkSize - 1) / chunkSize →
      ∃ c, chunkAt (saveFromUint8Array b maxSafeInteger st).1 i = some c ∧
        c.length = min chunkSize (b.length - (i - 1) * chunkSize)) ∧
    chunkAt (saveFromUint8Array b maxSafeInteger st).1
      ((b.length + chunkSize - 1) / chunkSize + 1) = none ∧
    (b.length % chunkSize ≠ 0 →
      (∀ i, 1 ≤ i → i ≤ (b.length + chunkSize - 1) / chunkSize →
        ∃ c, chunkAt (saveFromReader b maxSafeInteger st).1 i = some c ∧
          c.length = min chunkSize (b.length - (i - 1) * chunkSize)) ∧
      chunkAt (saveFromReader b maxSafeInteger st).1
        ((b.length + chunkSize - 1) / chunkSize + 1) = none) ∧
    (b.length % chunkSize = 0 →
      chunkAt (saveFromReader b maxSafeInteger st).1
        ((b.length + chunkSize - 1) / chunkSize + 1) = some [] ∧
      chunkAt (saveFromReader b maxSafeInteger st).1
        ((b.length + chunkSize - 1) / chunkSize + 2) = none) := by
  have hwb : writtenChunks maxSafeInteger (toChunks b) 0 = toChunks b :=
    writtenChunks_all _ _ _ (by rw [sumLen_toChunks]; omega)
  have hstore : (saveFromUint8Array b maxSafeInteger st).1 = canonFrom 1 (toChunks b) := by
    rw [saveFromUint8Array, runSave_spec _ _ _ h0, hwb]
  have hKlen := toChunks_length b
  have hgood : ∀ i, 1 ≤ i → i ≤ (b.length + chunkSize - 1) / chunkSize →
      ∃ c, chunkAt (canonFrom 1 (toChunks b)) i = some c ∧
        c.length = min chunkSize (b.length - (i - 1) * chunkSize) := by
    intro i h1 h2
    rw [chunkAt_canonFrom, if_pos (by omega)]
    have hi1 : i - 1 < (toChunks b).length := by omega
    rw [toChunks_getElem? b (i - 1) hi1]
    refine ⟨_, rfl, ?_⟩
    simp [List.length_take, List.length_drop]
  refine ⟨?_, ?_, ?_, ?_⟩
  · rw [hstore]; exact hgood
  · rw [hstore, chunkAt_canonFrom, if_neg (by omega)]
  · intro hmod
    have hr : readerChunks b = toChunks b := by
      rw [readerChunks, if_neg hmod, List.append_nil]
    have hstore2 : (saveFromReader b maxSafeInteger st).1 = canonFrom 1 (toChunks b) := by
      rw [saveFromReader, hr, runSave_spec _ _ _ h0, hwb]
    rw [hstore2]
    exact ⟨hgood, by rw [chunkAt_canonFrom, if_neg (by omega)]⟩
  · intro hmod
    have hr : readerChunks b = toChunks b ++ [[]] := by
      rw [readerChunks, if_pos hmod]
    have hw2 : writtenChunks maxSafeInteger (toChunks b ++ [[]]) 0 = toChunks b ++ [[]] :=
      writtenChunks_all _ _ _ (by simp [sumLen, sumLen_toChunks]
                                  rw [show ((toChunks b).map List.length).sum =
                                    sumLen (toChunks b) from rfl, sumLen_toChunks]; omega)
    have hstore2 : (saveFromReader b maxSafeInteger st).1 =
        canonFrom 1 (toChunks b ++ [[]]) := by
      rw [saveFromReader, hr, runSave_spec _ _ _ h0, hw2]
    rw [hstore2]
    constructor
    · rw [chunkAt_canonFrom, if_pos (by simp; omega)]
      rw [show (b.length + chunkSize - 1) / chunkSize + 1 - 1 = (toChunks b).length from
        by omega]
      rw [List.getElem?_append_right (le_refl _)]
      simp
    · rw [chunkAt_canonFrom, if_neg (by simp; omega)]

/-- C2 counterexample: saving the **empty byte stream** writes one
zero-length chunk at index 1, although `ceil(0 / 65536) = 0`, so the
claim "no chunk record exists at index ceil+1 for every form of
content" fails on the stream path: the chunk iterator emits one final
empty chunk when the stream length is an exact multiple of 65536, and
the pre-write cap check does not stop it. -/
theorem claim2_counterexample :
    chunkAt (saveFromReader [] maxSafeInteger []).1
      ((([] : Bytes).length + chunkSize - 1) / chunkSize + 1) = some [] ∧
    (saveFromReader [] maxSafeInteger []).1 = [(1, [])] := by
  constructor <;> rfl

/-- Witness for C2 at concrete inputs: a one-byte array and a one-byte
stream have exactly one chunk and none at index 2. -/
theorem claim2_witness :
    chunkAt (saveFromUint8Array [5] maxSafeInteger []).1 2 = none ∧
    chunkAt (saveFromReader [6] maxSafeInteger []).1 2 = none := by
  constructor
  · have h := (claim2_chunkLayout [5] [] (by decide) (by decide)).2.1
    have harith : (([5] : Bytes).length + chunkSize - 1) / chunkSize + 1 = 2 := by decide
    rwa [harith] at h
  · have h := ((claim2_chunkLayout [6] [] (by decide) (by decide)).2.2.1 (by decide)).2
    have harith : (([6] : Bytes).length + chunkSize - 1) / chunkSize + 1 = 2 := by decide
    rwa [harith] at h

/-- C3: saving a second payload over a previous one leaves exactly the
chunk records of the new payload — the retraction removes every stale
tail chunk.  (Stated, as in the claim, for a shorter second payload;
the proof does not need the length hypothesis.) -/
theorem claim3_retraction (b1 b2 : Bytes) (st : ChunkStore) (h0 : ChunkInv st)
    (hlong : b1.length ≤ maxSafeInteger) (hshort : b2.length ≤ b1.length) :
    (saveFromUint8Array b2 maxSafeInteger
        (saveFromUint8Array b1 maxSafeInteger st).1).1 =
      canonFrom 1 (toChunks b2) := by
  have hms : maxSafeInteger = 9007199254740991 := by norm_num [maxSafeInteger]
  have hw1 : writtenChunks maxSafeInteger (toChunks b1) 0 = toChunks b1 :=
    writtenChunks_all _ _ _ (by rw [sumLen_toChunks]; omega)
  have hw2 : writtenChunks maxSafeInteger (toChunks b2) 0 = toChunks b2 :=
    writtenChunks_all _ _ _ (by rw [sumLen_toChunks]; omega)
  have hinv : ChunkInv (canonFrom 1 (toChunks b1)) := by
    refine ⟨canonFrom_pairwise _ _, ?_⟩
    intro e he
    have hk := canonFrom_keys 1 (toChunks b1) e he
    have hKlen := toChunks_length b1
    rw [show chunkSize = 65536 from rfl] at hKlen
    have hlong2 : b1.length ≤ 9007199254740991 := hms ▸ hlong
    refine ⟨hk.1, ?_⟩
    rw [hms]
    omega
  rw [show (saveFromUint8Array b1 maxSafeInteger st).1 = canonFrom 1 (toChunks b1) from
    by rw [saveFromUint8Array, runSave_spec _ _ _ h0, hw1]]
  rw [saveFromUint8Array, runSave_spec _ _ _ hinv, hw2]

/-- Witness for C3: two bytes overwritten by one byte leave exactly the
single new chunk. -/
theorem claim3_witness :
    (saveFromUint8Array [9] maxSafeInteger
        (saveFromUint8Array [1, 2] maxSafeInteger []).1).1 =
      canonFrom 1 (toChunks [9]) :=
  claim3_retraction [1, 2] [9] [] (by decide) (by decide) (by decide)

/-- C4: in the chunk-writing loop shared by both save paths, the size
cap is checked before each write against the bytes of the previously
written chunks, so the chunk that crosses the cap is still written: on
truncation the final size strictly exceeds the cap, it never exceeds it
by more than one chunk, and the returned flags hold "incomplete"
exactly when truncation happened. -/
theorem claim4_sizeCap (chunks : List Bytes) (max : Nat) (st : ChunkStore)
    (h0 : ChunkInv st) (hc : ∀ c ∈ chunks, c.length ≤ chunkSize) :
    (runSave chunks max st).1 = canonFrom 1 (writtenChunks max chunks 0) ∧
    (runSave chunks max st).2.size = sumLen (writtenChunks max chunks 0) ∧
    ((runSave chunks max st).2.flags = ["incomplete"] ↔
      (writtenChunks max chunks 0).length < chunks.length) ∧
    ((writtenChunks max chunks 0).length < chunks.length →
      max < (runSave chunks max st).2.size) ∧
    (runSave chunks max st).2.size ≤ max + chunkSize := by
  rw [runSave_spec _ _ _ h0]
  refine ⟨rfl, rfl, ?_, ?_, ?_⟩
  · by_cases h : (writtenChunks max chunks 0).length < chunks.length
    · simp [h]
    · simp [h]
  · intro h
    have := writtenChunks_stop max chunks 0 h
    simpa using this
  · have := writtenChunks_le max chunks 0 hc (by omega)
    simpa using this

/-- Witness for C4: two chunks of sizes 2 and 1 against cap 1 — the
first chunk is written (crossing the cap), the second is not, and the
result is flagged incomplete with size 2. -/
theorem claim4_witness :
    (runSave [[1, 2], [3]] 1 []).1 = canonFrom 1 (writtenChunks 1 [[1, 2], [3]] 0) ∧
    (runSave [[1, 2], [3]] 1 []).2.size = sumLen (writtenChunks 1 [[1, 2], [3]] 0) ∧
    ((runSave [[1, 2], [3]] 1 []).2.flags = ["incomplete"] ↔
      (writtenChunks 1 [[1, 2], [3]] 0).length < ([[1, 2], [3]] : List Bytes).length) ∧
    ((writtenChunks 1 [[1, 2], [3]] 0).length < ([[1, 2], [3]] : List Bytes).length →
      1 < (runSave [[1, 2], [3]] 1 []).2.size) ∧
    (runSave [[1, 2], [3]] 1 []).2.size ≤ 1 + chunkSize :=
  claim4_sizeCap [[1, 2], [3]] 1 [] (by decide) (by decide)

/-! ## The engine layer

The class `DenoKvFs` as a state-passing embedding.  An operation maps
an `Engine` (the in-flight maps `savingFiles`, `deletingFiles`,
`clientsReqsMap` plus the KV snapshot) to a result and the new engine;
a thrown JS exception is `Except.error` — state changes made before the
throw persist, as in JS.  Substrate failures are injected through a
fault schedule inside the KV snapshot: every KV call consumes one flag
and throws when it is true (an always-false, i.e. empty, schedule is a
healthy substrate). -/

/-- String content is UTF-8 encoded before chunking (mod.ts 250-254,
`this.#enc.encode`). -/
def utf8Encode (s : List Nat) : Bytes := s.flatMap utf8Bytes

/-- A JS clientId value: a string or a number
(mod.ts `clientId?: string | number`). -/
inductive CId where
  | str (s : List Nat)
  | num (n : Nat)
  deriving DecidableEq

/-- JS property-key coercion: object keys are strings, so the number 0
and the string "0" address the same entry of `#clientsReqsMap`, and an
absent clientId would address the key "undefined". -/
def ckey : Option CId → List Nat
  | some (.str s) => s
  | some (.num n) => (Nat.toDigits 10 n).map Char.toNat
  | none => [117, 110, 100, 101, 102, 105, 110, 101, 100]

/-- JS truthiness of a clientId (`if (clientId)` in
`_incrementClientIdReq` / `_decrementClientIdReq`): the number 0, the
empty string, and undefined are falsy. -/
def truthy : Option CId → Bool
  | some (.str s) => decide (s ≠ [])
  | some (.num n) => decide (n ≠ 0)
  | none => false

/-- A JS object used as a map, keyed by coerced strings; first-match
lookup (keys are unique in all reachable states). -/
abbrev ReqsMap := List (List Nat × Nat)

/-- In-flight progress maps `#savingFiles` / `#deletingFiles`:
URIComponent to bytes processed. -/
abbrev InFlightMap := List (List Nat × Nat)

def lookupMap {α β : Type} [BEq α] (m : List (α × β)) (k : α) : Option β :=
  (m.find? (fun en => en.1 == k)).map Prod.snd

/-- JS property assignment: replace in place, else append. -/
def setMap {α β : Type} [BEq α] : List (α × β) → α → β → List (α × β)
  | [], k, v => [(k, v)]
  | (k2, v2) :: rest, k, v =>
    if k2 == k then (k, v) :: rest else (k2, v2) :: setMap rest k v

/-- JS `delete obj[k]`. -/
def delMap {α β : Type} [BEq α] : List (α × β) → α → List (α × β)
  | [], _ => []
  | (k2, v2) :: rest, k => if k2 == k then rest else (k2, v2) :: delMap rest k

/-- mod.ts 104-106: `this.#clientsReqsMap[clientId] || 0`. -/
def getClientReqs (m : ReqsMap) (cid : Option CId) : Nat :=
  (lookupMap m (ckey cid)).getD 0

/-- mod.ts 572-579 (`_incrementClientIdReq`): no-op on a falsy id; else
initialise the counter to 0 when absent (or stored falsy) and add 1. -/
def incrementClientIdReq (m : ReqsMap) (cid : Option CId) : ReqsMap :=
  if truthy cid then
    match lookupMap m (ckey cid) with
    | some v => if v = 0 then setMap m (ckey cid) 1 else setMap m (ckey cid) (v + 1)
    | none => setMap m (ckey cid) 1
  else m

/-- mod.ts 580-589 (`_decrementClientIdReq`): no-op on a falsy id or an
absent (or stored falsy) counter; else subtract 1 and remove the key
when the counter falls below 1. -/
def decrementClientIdReq (m : ReqsMap) (cid : Option CId) : ReqsMap :=
  if truthy cid then
    match lookupMap m (ckey cid) with
    | some v =>
      if v = 0 then m
      else if v - 1 < 1 then delMap m (ckey cid) else setMap m (ckey cid) (v - 1)
    | none => m
  else m

/-- The structured error messages of the source. -/
inductive Msg where
  | metadataTooLarge
  | forbidden
  | extNotAllowed (ext : List Nat) (fileName : List Nat) (allowed : List (List Nat))
  | maxConcurrent (m : Nat)
  | fileTooLarge (max : Nat)
  | substrate
  deriving DecidableEq

inductive StatusKind where
  | saving
  | deleting
  | error
  deriving DecidableEq

/-- mod.ts 64-70 (`FileStatus`).  In `#fileStatus` the path field is
recomputed from the URI with `URIComponentToPath`, which throws on a
malformed URI; reachable URIs come from `pathToURIComponent`, so the
default value of `getD` is never used there. -/
structure FileStatus where
  URIComponent : List Nat
  path : List (List Nat)
  progress : Nat
  status : StatusKind
  msg : Option Msg := none
  deriving DecidableEq

/-- Opaque JSON-serializable metadata; its serialized size under
`JSON.stringify` + `TextEncoder` (external builtins) is supplied by the
`jsonSize` parameter of the operations. -/
abbrev Meta := List (List Nat × List Nat)

/-- The empty object, the default stored metadata
(`options.metadata || ` empty object, mod.ts 269). -/
def emptyMeta : Meta := []

/-- mod.ts 51-58 (`File`), without the lazily attached content stream,
which is modelled by `drainContentStream`. -/
structure FileB where
  path : List (List Nat)
  flags : List String
  size : Nat
  URIComponent : List Nat
  metadata : Option Meta
  deriving DecidableEq

/-- The KV snapshot: the three key families of the persisted layout,
plus the fault schedule injecting substrate errors. -/
structure KvB where
  files : List (List (List Nat) × FileB)
  chunks : List (List Nat × ChunkStore)
  unresolved : List (List Nat)
  faults : List Bool
  deriving DecidableEq

/-- The engine: in-flight maps and the KV handle. -/
structure Engine where
  savingFiles : InFlightMap
  deletingFiles : InFlightMap
  clientsReqs : ReqsMap
  kv : KvB
  deriving DecidableEq

/-- The result of one suspending operation: its value or the thrown
exception, together with the state left behind (JS exceptions do not
roll back state). -/
abbrev EMRes (α : Type) := Except Msg α × Engine

/-- One KV substrate call: consume a fault flag (none left means no
fault) and either throw a substrate error or apply the action. -/
def kvCall {α : Type} (act : KvB → α × KvB) (e : Engine) : EMRes α :=
  match e.kv.faults with
  | [] =>
    let r := act e.kv
    (.ok r.1, { e with kv := r.2 })
  | f :: rest =>
    let e1 : Engine := { e with kv := { e.kv with faults := rest } }
    if f then (.error .substrate, e1)
    else
      let r := act e1.kv
      (.ok r.1, { e1 with kv := r.2 })

def kvGetFileB (p : List (List Nat)) : Engine → EMRes (Option FileB) :=
  kvCall (fun kv => (lookupMap kv.files p, kv))

def kvSetFileB (p : List (List Nat)) (v : FileB) : Engine → EMRes Unit :=
  kvCall (fun kv => ((), { kv with files := setMap kv.files p v }))

def kvDelFileB (p : List (List Nat)) : Engine → EMRes Unit :=
  kvCall (fun kv => ((), { kv with files := delMap kv.files p }))

/-- The unresolved marker is a set keyed by URI (its stored value, the
options with stream and callback elided, is enough to resume a delete
and is not needed by the claims). -/
def insertUri (l : List (List Nat)) (uri : List Nat) : List (List Nat) :=
  if uri ∈ l then l else l ++ [uri]

def kvSetUnresolvedB (uri : List Nat) : Engine → EMRes Unit :=
  kvCall (fun kv => ((), { kv with unresolved := insertUri kv.unresolved uri }))

def kvDelUnresolvedB (uri : List Nat) : Engine → EMRes Unit :=
  kvCall (fun kv => ((), { kv with unresolved := kv.unresolved.erase uri }))

def kvPutChunkB (uri : List Nat) (i : Nat) (v : Bytes) : Engine → EMRes Unit :=
  kvCall (fun kv =>
    let st := kvSetChunk ((lookupMap kv.chunks uri).getD []) i v
    ((), { kv with chunks := setMap kv.chunks uri st }))

/-- One paged scan over the chunk range of a URI (ordered by index). -/
def kvListChunksB (uri : List Nat) : Engine → EMRes ChunkStore :=
  kvCall (fun kv => ((lookupMap kv.chunks uri).getD [], kv))

def kvDelChunkB (uri : List Nat) (i : Nat) : Engine → EMRes Unit :=
  kvCall (fun kv =>
    let st := ((lookupMap kv.chunks uri).getD []).filter (fun en => decide (en.1 ≠ i))
    ((), { kv with chunks := setMap kv.chunks uri st }))

/-- One paged scan over `("deno_kv_fs", "files", ...path, *)`. -/
def kvListFilesB (p : List (List Nat)) : Engine → EMRes (List (List (List Nat) × FileB)) :=
  kvCall (fun kv => (kv.files.filter (fun en => p.isPrefixOf en.1), kv))

/-- mod.ts 553-571 (`#fileStatus`). -/
def fileStatus (e : Engine) (uri : List Nat) : Option FileStatus :=
  match lookupMap e.savingFiles uri with
  | some p => some ⟨uri, (URIComponentToPath uri).getD [], p, .saving, none⟩
  | none =>
    match lookupMap e.deletingFiles uri with
    | some p => some ⟨uri, (URIComponentToPath uri).getD [], p, .deleting, none⟩
    | none => none

/-- An inline error status as built in save / read / delete. -/
def errStatus (uri : List Nat) (p : List (List Nat)) (m : Msg) : FileStatus :=
  ⟨uri, p, 0, .error, some m⟩

/-- mod.ts 12-31: the recognized options.  `chunksPerSecond` and
`maxDirEntriesPerSecond` only throttle (not modelled); `pagination` and
`cursor` only affect scan batching.  Absent optional fields take the
defaults of mod.ts 32-46 at the use sites via `getD`. -/
inductive Content where
  | str (s : List Nat)
  | bytes (b : Bytes)
  | stream (b : Bytes)

structure SaveOptions where
  path : List (List Nat)
  content : Content
  metadata : Option Meta := none
  clientId : Option CId := none
  validateAccess : Option (List (List Nat) → Bool) := none
  maxClientIdConcurrentReqs : Option Nat := none
  maxFileSizeBytes : Option Nat := none
  allowedExtensions : Option (List (List Nat)) := none

structure ReadOptions where
  path : List (List Nat)
  clientId : Option CId := none
  validateAccess : Option (List (List Nat) → Bool) := none
  maxClientIdConcurrentReqs : Option Nat := none

/-- mod.ts 216: the final dot-separated suffix of the last segment. -/
def fileExtOf (p : List (List Nat)) : List Nat :=
  ((splitSep 46 ((p.getLast?).getD [])).getLast?).getD []

/-- mod.ts 590-598 (`#startSaving`): increment the client counter, set
the in-flight progress to 0, write the unresolved marker (the marker
write is a KV call and can throw). -/
def startSavingB (o : SaveOptions) (e : Engine) : EMRes Unit :=
  let e1 := { e with clientsReqs := incrementClientIdReq e.clientsReqs o.clientId }
  let uri := pathToURIComponent o.path
  let e2 := { e1 with savingFiles := setMap e1.savingFiles uri 0 }
  kvSetUnresolvedB uri e2

/-- mod.ts 599-611 (`#endSaving`): when resolved, first delete the
marker (a KV call, before the in-memory cleanup, as in the source);
then remove the in-flight entry and decrement the client counter. -/
def endSavingB (o : SaveOptions) (resolved : Bool) (e : Engine) : EMRes Unit :=
  let uri := pathToURIComponent o.path
  let fin : Engine → Engine := fun e0 =>
    { e0 with savingFiles := delMap e0.savingFiles uri,
              clientsReqs := decrementClientIdReq e0.clientsReqs o.clientId }
  if resolved then
    match kvDelUnresolvedB uri e with
    | (.error m, e1) => (.error m, e1)
    | (.ok _, e1) => (.ok (), fin e1)
  else (.ok (), fin e)

/-- mod.ts 612-620 (`#startDeleting`). -/
def startDeletingB (o : ReadOptions) (e : Engine) : EMRes Unit :=
  let e1 := { e with clientsReqs := incrementClientIdReq e.clientsReqs o.clientId }
  let uri := pathToURIComponent o.path
  let e2 := { e1 with deletingFiles := setMap e1.deletingFiles uri 0 }
  kvSetUnresolvedB uri e2

/-- mod.ts 621-633 (`#endDeleting`). -/
def endDeletingB (o : ReadOptions) (resolved : Bool) (e : Engine) : EMRes Unit :=
  let uri := pathToURIComponent o.path
  let fin : Engine → Engine := fun e0 =>
    { e0 with deletingFiles := delMap e0.deletingFiles uri,
              clientsReqs := decrementClientIdReq e0.clientsReqs o.clientId }
  if resolved then
    match kvDelUnresolvedB uri e with
    | (.error m, e1) => (.error m, e1)
    | (.ok _, e1) => (.ok (), fin e1)
  else (.ok (), fin e)

/-- The chunk-writing loop of `#saveFromReader` / `#saveFromUint8Array`
over the live KV: put each chunk, update the in-flight progress, stop
(flagging incomplete) when the cumulative size exceeds the cap before
a chunk.  Returns (sizeBytes, totalCount, incomplete). -/
def saveChunksB (uri : List Nat) (max : Nat) :
    List Bytes → Nat → Nat → Engine → EMRes (Nat × Nat × Bool)
  | [], size, count, e => (.ok (size, count, false), e)
  | chunk :: rest, size, count, e =>
    if max < size then (.ok (size, count, true), e)
    else
      match kvPutChunkB uri (count + 1) chunk e with
      | (.error m, e1) => (.error m, e1)
      | (.ok _, e1) =>
        let e2 := { e1 with
          savingFiles := setMap e1.savingFiles uri (size + chunk.length) }
        saveChunksB uri max rest (size + chunk.length) (count + 1) e2

def delChunkListB (uri : List Nat) : ChunkStore → Engine → EMRes Unit
  | [], e => (.ok (), e)
  | (i, _) :: rest, e =>
    match kvDelChunkB uri i e with
    | (.error m, e1) => (.error m, e1)
    | (.ok _, e1) => delChunkListB uri rest e1

/-- mod.ts 634-672 (`#retract`): scan the range
`(chunks, uri, nextChunkIndex) .. (chunks, uri, MAX_SAFE_INTEGER)` and
delete each entry. -/
def retractB (uri : List Nat) (next : Nat) (e : Engine) : EMRes Unit :=
  match kvListChunksB uri e with
  | (.error m, e1) => (.error m, e1)
  | (.ok entries, e1) =>
    delChunkListB uri
      (entries.filter (fun en => decide (next ≤ en.1 ∧ en.1 < maxSafeInteger))) e1

def deleteChunksListB (uri : List Nat) : ChunkStore → Engine → EMRes Unit
  | [], e => (.ok (), e)
  | (i, v) :: rest, e =>
    match kvDelChunkB uri i e with
    | (.error m, e1) => (.error m, e1)
    | (.ok _, e1) =>
      let prog := (lookupMap e1.deletingFiles uri).getD 0 + v.length
      let e2 := { e1 with deletingFiles := setMap e1.deletingFiles uri prog }
      deleteChunksListB uri rest e2

/-- mod.ts 673-705 (`#deleteChunks`): scan the whole chunk range of the
URI, delete each entry and add its length to the deleting progress. -/
def deleteChunksB (uri : List Nat) (e : Engine) : EMRes Unit :=
  match kvListChunksB uri e with
  | (.error m, e1) => (.error m, e1)
  | (.ok entries, e1) => deleteChunksListB uri entries e1

/-- The try block of save (mod.ts 248-274): normalize the content,
run the chunk loop, retract stale tail chunks, write the file record
(metadata defaults to the empty object), end saving (which deletes the
unresolved marker), return the record. -/
def saveBody (o : SaveOptions) (uri : List Nat) (e : Engine) :
    EMRes (Sum FileStatus FileB) :=
  let chunksList :=
    match o.content with
    | .str s => toChunks (utf8Encode s)
    | .bytes b => toChunks b
    | .stream b => readerChunks b
  match saveChunksB uri (o.maxFileSizeBytes.getD maxSafeInteger) chunksList 0 0 e with
  | (.error m, e1) => (.error m, e1)
  | (.ok (size, count, inc), e1) =>
    match retractB uri (count + 1) e1 with
    | (.error m, e2) => (.error m, e2)
    | (.ok _, e2) =>
      let file : FileB := ⟨o.path, if inc then ["incomplete"] else [], size, uri,
        some (o.metadata.getD emptyMeta)⟩
      match kvSetFileB o.path file e2 with
      | (.error m, e3) => (.error m, e3)
      | (.ok _, e3) =>
        match endSavingB o true e3 with
        | (.error m, e4) => (.error m, e4)
        | (.ok _, e4) => (.ok (.inr file), e4)

/-- mod.ts 177-293 (`save`).  The in-flight short-circuit, the metadata
size check (before defaults), validateAccess, the extension filter, the
cap check between `#startSaving` and `#endSaving` — all returning error
statuses — then the try block; the catch returns an error status after
an unresolved `#endSaving` (its own failures swallowed by an inner
try).  The compensating `this.delete(options)` in the catch runs
concurrently without await; its later effects are outside this step.
Note `#startSaving` and the cap branch run before the try block, so a
marker-write failure propagates out of save. -/
def save (jsonSize : Meta → Nat) (o : SaveOptions) (e : Engine) :
    EMRes (Sum FileStatus FileB) :=
  let uri := pathToURIComponent o.path
  match fileStatus e uri with
  | some st => (.ok (.inl st), e)
  | none =>
    if (match o.metadata with
        | some md => decide (61440 < jsonSize md)
        | none => false) then
      (.ok (.inl (errStatus uri o.path .metadataTooLarge)), e)
    else if (o.validateAccess.getD (fun _ => true)) o.path = false then
      (.ok (.inl (errStatus uri o.path .forbidden)), e)
    else if (o.allowedExtensions.getD []) ≠ [] ∧
        (o.allowedExtensions.getD []).contains (fileExtOf o.path) = false then
      (.ok (.inl (errStatus uri o.path
        (.extNotAllowed (fileExtOf o.path) ((o.path.getLast?).getD [])
          (o.allowedExtensions.getD [])))), e)
    else
      match startSavingB o e with
      | (.error m, e1) => (.error m, e1)
      | (.ok _, e1) =>
        if getClientReqs e1.clientsReqs o.clientId >
            o.maxClientIdConcurrentReqs.getD maxSafeInteger then
          match endSavingB o true e1 with
          | (.error m, e2) => (.error m, e2)
          | (.ok _, e2) =>
            (.ok (.inl (errStatus uri o.path
              (.maxConcurrent (o.maxClientIdConcurrentReqs.getD maxSafeInteger)))), e2)
        else
          match saveBody o uri e1 with
          | (.ok r, e2) => (.ok r, e2)
          | (.error m, e2) =>
            match endSavingB o false e2 with
            | (.ok _, e3) => (.ok (.inl (errStatus uri o.path m)), e3)
            | (.error _, e3) => (.ok (.inl (errStatus uri o.path m)), e3)

/-- The result of read: the in-flight or error status, the record
(content attached lazily — drained by `drainContentStream`), or null. -/
inductive ReadResult where
  | status (st : FileStatus)
  | found (f : FileB)
  | missing
  deriving DecidableEq

/-- mod.ts 294-324 (`read`).  No try/catch here: a substrate failure of
the `kv.get` propagates out of read. -/
def read (o : ReadOptions) (e : Engine) : EMRes ReadResult :=
  let uri := pathToURIComponent o.path
  match fileStatus e uri with
  | some st => (.ok (.status st), e)
  | none =>
    if (o.validateAccess.getD (fun _ => true)) o.path = false then
      (.ok (.status (errStatus uri o.path .forbidden)), e)
    else
      match kvGetFileB o.path e with
      | (.error m, e1) => (.error m, e1)
      | (.ok none, e1) => (.ok .missing, e1)
      | (.ok (some f), e1) => (.ok (.found { f with URIComponent := uri }), e1)

/-- Draining the lazy content stream attached by read
(`#contentToStream`, mod.ts 716-775): the first pull takes a client
slot and errors the stream when the count exceeds the cap; then the
chunk range is enqueued in key order and the slot is released at the
end of the range; the catch releases the slot and forwards the error.
The result is the stream outcome seen by the consumer. -/
def drainContentStream (o : ReadOptions) (uri : List Nat) (e : Engine) : EMRes Bytes :=
  let e1 := { e with clientsReqs := incrementClientIdReq e.clientsReqs o.clientId }
  if getClientReqs e1.clientsReqs o.clientId >
      o.maxClientIdConcurrentReqs.getD maxSafeInteger then
    (.error (.maxConcurrent (o.maxClientIdConcurrentReqs.getD maxSafeInteger)),
     { e1 with clientsReqs := decrementClientIdReq e1.clientsReqs o.clientId })
  else
    match kvListChunksB uri e1 with
    | (.error m, e2) =>
      (.error m, { e2 with clientsReqs := decrementClientIdReq e2.clientsReqs o.clientId })
    | (.ok entries, e2) =>
      (.ok (drainChunks entries),
       { e2 with clientsReqs := decrementClientIdReq e2.clientsReqs o.clientId })

/-- The try block of delete (mod.ts 439-460): start deleting, cap
check, delete the file record first, then the chunks, end deleting. -/
def deleteBody (o : ReadOptions) (uri : List Nat) (e : Engine) :
    EMRes (Option FileStatus) :=
  match startDeletingB o e with
  | (.error m, e1) => (.error m, e1)
  | (.ok _, e1) =>
    if getClientReqs e1.clientsReqs o.clientId >
        o.maxClientIdConcurrentReqs.getD maxSafeInteger then
      match endDeletingB o true e1 with
      | (.error m, e2) => (.error m, e2)
      | (.ok _, e2) =>
        (.ok (some (errStatus uri o.path
          (.maxConcurrent (o.maxClientIdConcurrentReqs.getD maxSafeInteger)))), e2)
    else
      match kvDelFileB o.path e1 with
      | (.error m, e2) => (.error m, e2)
      | (.ok _, e2) =>
        match deleteChunksB uri e2 with
        | (.error m, e3) => (.error m, e3)
        | (.ok _, e3) =>
          match endDeletingB o true e3 with
          | (.error m, e4) => (.error m, e4)
          | (.ok _, e4) => (.ok none, e4)

/-- mod.ts 419-478 (`delete`).  Everything after the access check sits
inside try/catch, so delete never raises: the catch ends deleting
unresolved (its own failures swallowed) and returns an error status. -/
def delete (o : ReadOptions) (e : Engine) : EMRes (Option FileStatus) :=
  let uri := pathToURIComponent o.path
  match fileStatus e uri with
  | some st => (.ok (some st), e)
  | none =>
    if (o.validateAccess.getD (fun _ => true)) o.path = false then
      (.ok (some (errStatus uri o.path .forbidden)), e)
    else
      match deleteBody o uri e with
      | (.ok r, e1) => (.ok r, e1)
      | (.error m, e1) =>
        match endDeletingB o false e1 with
        | (.ok _, e2) => (.ok (some (errStatus uri o.path m)), e2)
        | (.error _, e2) => (.ok (some (errStatus uri o.path m)), e2)

/-- mod.ts 59-63 (`DirList`); the pagination cursor is scan batching
and is not modelled. -/
structure DirList where
  files : List (Sum FileStatus FileB)
  size : Nat
  deriving DecidableEq

/-- One entry of the readDir loop (mod.ts 352-392): an in-flight entry
contributes its status (and, when saving, its progress to the size
total); otherwise the record is attached a content stream and its size
is added. -/
def readDirStep (e : Engine) (d : DirList) (en : List (List Nat) × FileB) : DirList :=
  let uri := pathToURIComponent en.1
  match fileStatus e uri with
  | some st =>
    ⟨d.files ++ [.inl st],
     d.size + (if st.status = .saving then st.progress else 0)⟩
  | none => ⟨d.files ++ [.inr { en.2 with URIComponent := uri }], d.size + en.2.size⟩

/-- mod.ts 325-394 (`readDir`).  The paged scan is not wrapped in
try/catch, so a substrate failure propagates out of readDir. -/
def readDir (o : ReadOptions) (e : Engine) : EMRes DirList :=
  if (o.validateAccess.getD (fun _ => true)) o.path = false then
    (.ok ⟨[.inl (errStatus (pathToURIComponent o.path) o.path .forbidden)], 0⟩, e)
  else
    match kvListFilesB o.path e with
    | (.error m, e1) => (.error m, e1)
    | (.ok entries, e1) => (.ok (entries.foldl (readDirStep e1) ⟨[], 0⟩), e1)

/-- The deleteDir loop (mod.ts 503-526): delete each scanned file; a
truthy result (an error or in-flight status) is collected. -/
def deleteDirLoop (o : ReadOptions) :
    List (List (List Nat) × FileB) → List FileStatus → Engine → EMRes (List FileStatus)
  | [], acc, e => (.ok acc, e)
  | (p, _) :: rest, acc, e =>
    match delete { o with path := p } e with
    | (.error m, e1) => (.error m, e1)
    | (.ok (some st), e1) => deleteDirLoop o rest (acc ++ [st]) e1
    | (.ok none, e1) => deleteDirLoop o rest acc e1

/-- mod.ts 479-528 (`deleteDir`).  The paged scan is not wrapped in
try/catch, so a substrate failure of the scan propagates; the inner
deletes never raise. -/
def deleteDir (o : ReadOptions) (e : Engine) : EMRes (List FileStatus) :=
  if (o.validateAccess.getD (fun _ => true)) o.path = false then
    (.ok [errStatus (pathToURIComponent o.path) o.path .forbidden], e)
  else
    match kvListFilesB o.path e with
    | (.error m, e1) => (.error m, e1)
    | (.ok entries, e1) => deleteDirLoop o entries [] e1

/-- mod.ts 395-411 (`setMetadata`): **throws** on oversized metadata;
otherwise read the record, replace the metadata, write back; no-op when
the record is absent. -/
def setMetadata (jsonSize : Meta → Nat) (p : List (List Nat)) (md : Meta)
    (e : Engine) : EMRes Unit :=
  if 61440 < jsonSize md then (.error .metadataTooLarge, e)
  else
    match kvGetFileB p e with
    | (.error m, e1) => (.error m, e1)
    | (.ok none, e1) => (.ok (), e1)
    | (.ok (some f), e1) =>
      match kvSetFileB p { f with metadata := some md } e1 with
      | (.error m, e2) => (.error m, e2)
      | (.ok _, e2) => (.ok (), e2)

/-- mod.ts 413-418 (`getMetadata`): `file?.metadata`. -/
def getMetadata (p : List (List Nat)) (e : Engine) : EMRes (Option Meta) :=
  match kvGetFileB p e with
  | (.error m, e1) => (.error m, e1)
  | (.ok f, e1) => (.ok (f.bind (fun file => file.metadata)), e1)

/-! ### Map lemmas -/

theorem lookupMap_nil {α β : Type} [BEq α] (k : α) :
    lookupMap ([] : List (α × β)) k = none := rfl

theorem lookupMap_cons {α β : Type} [BEq α] (k2 : α) (v2 : β) (m : List (α × β)) (k : α) :
    lookupMap ((k2, v2) :: m) k = if k2 == k then some v2 else lookupMap m k := by
  by_cases h : k2 == k
  · simp [lookupMap, List.find?, h]
  · simp [lookupMap, List.find?, h]

theorem lookupMap_setMap_self {α β : Type} [BEq α] [LawfulBEq α]
    (m : List (α × β)) (k : α) (v : β) : lookupMap (setMap m k v) k = some v := by
  induction m with
  | nil => simp [setMap, lookupMap_cons]
  | cons en m ih =>
    obtain ⟨k2, v2⟩ := en
    rw [setMap]
    by_cases h : k2 == k
    · rw [if_pos h, lookupMap_cons, if_pos (by simp)]
    · rw [if_neg h, lookupMap_cons, if_neg h]
      exact ih

theorem setMap_self_of_lookup {α β : Type} [BEq α] [LawfulBEq α]
    (m : List (α × β)) (k : α) (v : β) (h : lookupMap m k = some v) :
    setMap m k v = m := by
  induction m with
  | nil => simp [lookupMap_nil] at h
  | cons en m ih =>
    obtain ⟨k2, v2⟩ := en
    rw [lookupMap_cons] at h
    rw [setMap]
    by_cases hk : k2 == k
    · rw [if_pos hk]
      rw [if_pos hk] at h
      injection h with h
      rw [← h]
      have : k2 = k := by simpa using hk
      rw [this]
    · rw [if_neg hk]
      rw [if_neg hk] at h
      rw [ih h]

theorem delMap_setMap_of_absent {α β : Type} [BEq α] [LawfulBEq α]
    (m : List (α × β)) (k : α) (v : β) (h : lookupMap m k = none) :
    delMap (setMap m k v) k = m := by
  induction m with
  | nil => simp [setMap, delMap]
  | cons en m ih =>
    obtain ⟨k2, v2⟩ := en
    rw [lookupMap_cons] at h
    by_cases hk : k2 == k
    · rw [if_pos hk] at h
      cases h
    · rw [if_neg hk] at h
      rw [setMap, if_neg hk, delMap, if_neg hk, ih h]

theorem setMap_setMap {α β : Type} [BEq α] [LawfulBEq α]
    (m : List (α × β)) (k : α) (a b : β) :
    setMap (setMap m k a) k b = setMap m k b := by
  induction m with
  | nil => simp [setMap]
  | cons en m ih =>
    obtain ⟨k2, v2⟩ := en
    rw [setMap]
    by_cases hk : k2 == k
    · rw [if_pos hk, setMap, if_pos (by simp), setMap, if_pos hk]
    · rw [if_neg hk, setMap, if_neg hk, setMap, if_neg hk, ih]

theorem incrementClientIdReq_eq (m : ReqsMap) (cid : Option CId)
    (htr : truthy cid = true) :
    incrementClientIdReq m cid =
      setMap m (ckey cid) ((lookupMap m (ckey cid)).getD 0 + 1) := by
  rw [incrementClientIdReq, if_pos htr]
  cases h : lookupMap m (ckey cid) with
  | none => simp
  | some v =>
    by_cases hv : v = 0
    · subst hv
      simp
    · simp [hv]

theorem getClientReqs_inc (m : ReqsMap) (cid : Option CId) (htr : truthy cid = true) :
    getClientReqs (incrementClientIdReq m cid) cid = getClientReqs m cid + 1 := by
  rw [incrementClientIdReq_eq m cid htr, getClientReqs, lookupMap_setMap_self]
  rfl

theorem dec_inc_restore (m : ReqsMap) (cid : Option CId) (htr : truthy cid = true)
    (hgood : lookupMap m (ckey cid) = none ∨
      ∃ v, lookupMap m (ckey cid) = some v ∧ 1 ≤ v) :
    decrementClientIdReq (incrementClientIdReq m cid) cid = m := by
  rw [incrementClientIdReq_eq m cid htr]
  rcases hgood with h | ⟨v, h, hv⟩
  · rw [h]
    rw [decrementClientIdReq, if_pos htr, lookupMap_setMap_self]
    simp only [Option.getD_none, Option.getD_some]
    rw [if_neg (by omega), if_pos (by omega)]
    exact delMap_setMap_of_absent m (ckey cid) _ (by simpa using h)
  · rw [h]
    rw [decrementClientIdReq, if_pos htr, lookupMap_setMap_self]
    simp only [Option.getD_none, Option.getD_some]
    rw [if_neg (by omega), if_neg (by omega)]
    rw [setMap_setMap]
    have hgd : v + 1 - 1 = v := by omega
    rw [hgd]
    exact setMap_self_of_lookup m (ckey cid) v h

theorem erase_insertUri (l : List (List Nat)) (uri : List Nat) (h : uri ∉ l) :
    (insertUri l uri).erase uri = l := by
  rw [insertUri, if_neg h]
  rw [List.erase_append_right _ (by simpa using h)]
  simp

/-! ### In-flight short-circuits (claim C6) -/

theorem fileStatus_saving (e : Engine) (uri : List Nat) (prog : Nat)
    (h : lookupMap e.savingFiles uri = some prog) :
    fileStatus e uri =
      some ⟨uri, (URIComponentToPath uri).getD [], prog, .saving, none⟩ := by
  rw [fileStatus, h]

theorem fileStatus_deleting (e : Engine) (uri : List Nat) (prog : Nat)
    (h1 : lookupMap e.savingFiles uri = none)
    (h2 : lookupMap e.deletingFiles uri = some prog) :
    fileStatus e uri =
      some ⟨uri, (URIComponentToPath uri).getD [], prog, .deleting, none⟩ := by
  rw [fileStatus, h1, h2]

theorem save_inflight (jsonSize : Meta → Nat) (o : SaveOptions) (e : Engine)
    (st : FileStatus) (h : fileStatus e (pathToURIComponent o.path) = some st) :
    save jsonSize o e = (.ok (.inl st), e) := by
  rw [save]
  simp only [h]

theorem read_inflight (o : ReadOptions) (e : Engine) (st : FileStatus)
    (h : fileStatus e (pathToURIComponent o.path) = some st) :
    read o e = (.ok (.status st), e) := by
  rw [read]
  simp only [h]

theorem delete_inflight (o : ReadOptions) (e : Engine) (st : FileStatus)
    (h : fileStatus e (pathToURIComponent o.path) = some st) :
    delete o e = (.ok (some st), e) := by
  rw [delete]
  simp only [h]

/-- C6: while a save for p is in flight (its URI is in `#savingFiles`),
read(p), save(p, anything) and delete(p) all return the in-flight
FileStatus with status saving and the current progress, and leave the
whole engine state — including the KV — untouched; symmetrically for an
in-flight delete with status deleting. -/
theorem claim6_mutualExclusion (jsonSize : Meta → Nat) (o : SaveOptions)
    (ro : ReadOptions) (e : Engine) (prog : Nat) (hp : ro.path = o.path) :
    (lookupMap e.savingFiles (pathToURIComponent o.path) = some prog →
      save jsonSize o e =
        (.ok (.inl ⟨pathToURIComponent o.path,
          (URIComponentToPath (pathToURIComponent o.path)).getD [], prog,
          .saving, none⟩), e) ∧
      read ro e =
        (.ok (.status ⟨pathToURIComponent o.path,
          (URIComponentToPath (pathToURIComponent o.path)).getD [], prog,
          .saving, none⟩), e) ∧
      delete ro e =
        (.ok (some ⟨pathToURIComponent o.path,
          (URIComponentToPath (pathToURIComponent o.path)).getD [], prog,
          .saving, none⟩), e)) ∧
    (lookupMap e.savingFiles (pathToURIComponent o.path) = none →
     lookupMap e.deletingFiles (pathToURIComponent o.path) = some prog →
      save jsonSize o e =
        (.ok (.inl ⟨pathToURIComponent o.path,
          (URIComponentToPath (pathToURIComponent o.path)).getD [], prog,
          .deleting, none⟩), e) ∧
      read ro e =
        (.ok (.status ⟨pathToURIComponent o.path,
          (URIComponentToPath (pathToURIComponent o.path)).getD [], prog,
          .deleting, none⟩), e) ∧
      delete ro e =
        (.ok (some ⟨pathToURIComponent o.path,
          (URIComponentToPath (pathToURIComponent o.path)).getD [], prog,
          .deleting, none⟩), e)) := by
  constructor
  · intro hsav
    have hfs := fileStatus_saving e (pathToURIComponent o.path) prog hsav
    exact ⟨save_inflight jsonSize o e _ hfs,
      read_inflight ro e _ (by rw [hp]; exact hfs),
      delete_inflight ro e _ (by rw [hp]; exact hfs)⟩
  · intro hns hdel
    have hfs := fileStatus_deleting e (pathToURIComponent o.path) prog hns hdel
    exact ⟨save_inflight jsonSize o e _ hfs,
      read_inflight ro e _ (by rw [hp]; exact hfs),
      delete_inflight ro e _ (by rw [hp]; exact hfs)⟩

/-- Witness for C6: an engine with one in-flight save, progress 5. -/
theorem claim6_witness :
    save (fun _ => 0) ⟨[[97]], .bytes [1], none, none, none, none, none, none⟩
        ⟨[([97], 5)], [], [], ⟨[], [], [], []⟩⟩ =
      (.ok (.inl ⟨pathToURIComponent [[97]],
        (URIComponentToPath (pathToURIComponent [[97]])).getD [], 5, .saving, none⟩),
       ⟨[([97], 5)], [], [], ⟨[], [], [], []⟩⟩) ∧
    read ⟨[[97]], none, none, none⟩ ⟨[([97], 5)], [], [], ⟨[], [], [], []⟩⟩ =
      (.ok (.status ⟨pathToURIComponent [[97]],
        (URIComponentToPath (pathToURIComponent [[97]])).getD [], 5, .saving, none⟩),
       ⟨[([97], 5)], [], [], ⟨[], [], [], []⟩⟩) ∧
    delete ⟨[[97]], none, none, none⟩ ⟨[([97], 5)], [], [], ⟨[], [], [], []⟩⟩ =
      (.ok (some ⟨pathToURIComponent [[97]],
        (URIComponentToPath (pathToURIComponent [[97]])).getD [], 5, .saving, none⟩),
       ⟨[([97], 5)], [], [], ⟨[], [], [], []⟩⟩) :=
  (claim6_mutualExclusion (fun _ => 0)
    ⟨[[97]], .bytes [1], none, none, none, none, none, none⟩
    ⟨[[97]], none, none, none⟩
    ⟨[([97], 5)], [], [], ⟨[], [], [], []⟩⟩ 5 rfl).1 (by decide)

/-! ### Falsy clientId accounting (claim C10) -/

/-- C10 counterexample: JS key coercion folds the number 0 and the
string "0" onto the same map key, so after two increments by the
(truthy) string "0" client, `getClientReqs` for the falsy number 0
returns 2, not 0. -/
theorem claim10_counterexample :
    getClientReqs
      (incrementClientIdReq
        (incrementClientIdReq [] (some (.str [48]))) (some (.str [48])))
      (some (.num 0)) = 2 ∧
    truthy (some (.num 0)) = false := by
  decide

/-- C10 (amended): a falsy clientId (the number 0, the empty string, or
absent) is never incremented or decremented, and — provided no truthy
client whose coerced key collides with it is active — its
`getClientReqs` is 0, the count seen by the cap check right after the
increment is still 0 (so the cap is never triggered for it), and
pulling a read content stream for it succeeds on a healthy substrate. -/
theorem claim10_falsyExempt (cid : Option CId) (m : ReqsMap)
    (ro : ReadOptions) (e : Engine) (uri : List Nat)
    (htr : truthy cid = false) :
    incrementClientIdReq m cid = m ∧
    decrementClientIdReq m cid = m ∧
    (lookupMap m (ckey cid) = none → getClientReqs m cid = 0) ∧
    (lookupMap m (ckey cid) = none →
      getClientReqs (incrementClientIdReq m cid) cid = 0) ∧
    (ro.clientId = cid → e.clientsReqs = m → e.kv.faults = [] →
      lookupMap m (ckey cid) = none →
      (drainContentStream ro uri e).1.isOk = true) := by
  have hinc : incrementClientIdReq m cid = m := by
    rw [incrementClientIdReq, if_neg (by simp [htr])]
  have hdec : decrementClientIdReq m cid = m := by
    rw [decrementClientIdReq, if_neg (by simp [htr])]
  have hget : lookupMap m (ckey cid) = none → getClientReqs m cid = 0 := by
    intro h
    rw [getClientReqs, h]
    rfl
  refine ⟨hinc, hdec, hget, fun h => by rw [hinc]; exact hget h, ?_⟩
  intro hcid he hf hnone
  rw [drainContentStream, hcid, he, hinc]
  rw [if_neg (by rw [hget hnone]; omega)]
  rw [kvListChunksB, kvCall]
  simp only [he, hf]
  rfl

/-- Witness for C10 (amended) at the falsy number 0 with an engine
holding an unrelated truthy client. -/
theorem claim10_witness :
    incrementClientIdReq [([98], 3)] (some (.num 0)) = [([98], 3)] ∧
    decrementClientIdReq [([98], 3)] (some (.num 0)) = [([98], 3)] ∧
    (lookupMap [([98], 3)] (ckey (some (.num 0))) = none →
      getClientReqs [([98], 3)] (some (.num 0)) = 0) ∧
    (lookupMap [([98], 3)] (ckey (some (.num 0))) = none →
      getClientReqs (incrementClientIdReq [([98], 3)] (some (.num 0)))
        (some (.num 0)) = 0) ∧
    ((⟨[[97]], some (.num 0), none, none⟩ : ReadOptions).clientId = some (.num 0) →
      (⟨[], [], [([98], 3)], ⟨[], [], [], []⟩⟩ : Engine).clientsReqs = [([98], 3)] →
      (⟨[], [], [([98], 3)], ⟨[], [], [], []⟩⟩ : Engine).kv.faults = [] →
      lookupMap [([98], 3)] (ckey (some (.num 0))) = none →
      (drainContentStream ⟨[[97]], some (.num 0), none, none⟩ [97]
        ⟨[], [], [([98], 3)], ⟨[], [], [], []⟩⟩).1.isOk = true) :=
  claim10_falsyExempt (some (.num 0)) [([98], 3)]
    ⟨[[97]], some (.num 0), none, none⟩
    ⟨[], [], [([98], 3)], ⟨[], [], [], []⟩⟩ [97] (by decide)

/-! ### Concurrency cap (claim C7) -/

/-- C7: with `maxClientIdConcurrentReqs = m` for a (truthy) client that
already holds `m` slots, the next save, delete, or read-stream pull
returns (or errors the stream with) the concurrency-cap error.  The cap
is checked right after the increment and before any real work: on
breach, the slot is released and the whole engine state is restored —
the final state equals the initial one. -/
theorem claim7_concurrencyCap (jsonSize : Meta → Nat) (o : SaveOptions)
    (ro : ReadOptions) (e : Engine) (c : CId) (m : Nat)
    (hcid : o.clientId = some c) (hrocid : ro.clientId = some c)
    (htr : truthy (some c) = true)
    (hmx : o.maxClientIdConcurrentReqs = some m)
    (hromx : ro.maxClientIdConcurrentReqs = some m)
    (hlk : lookupMap e.clientsReqs (ckey (some c)) = some m) (hm1 : 1 ≤ m)
    (hmd : o.metadata = none) (hva : o.validateAccess = none)
    (hrova : ro.validateAccess = none)
    (hex : o.allowedExtensions = none)
    (hnosave : lookupMap e.savingFiles (pathToURIComponent o.path) = none)
    (hnodel : lookupMap e.deletingFiles (pathToURIComponent o.path) = none)
    (hronosave : lookupMap e.savingFiles (pathToURIComponent ro.path) = none)
    (hronodel : lookupMap e.deletingFiles (pathToURIComponent ro.path) = none)
    (hunres : pathToURIComponent o.path ∉ e.kv.unresolved)
    (hrounres : pathToURIComponent ro.path ∉ e.kv.unresolved)
    (hf : e.kv.faults = []) :
    save jsonSize o e =
      (.ok (.inl (errStatus (pathToURIComponent o.path) o.path (.maxConcurrent m))),
       e) ∧
    delete ro e =
      (.ok (some (errStatus (pathToURIComponent ro.path) ro.path (.maxConcurrent m))),
       e) ∧
    drainContentStream ro (pathToURIComponent ro.path) e =
      (.error (.maxConcurrent m), e) := by
  have hgetm : getClientReqs e.clientsReqs (some c) = m := by
    rw [getClientReqs, hlk]
    rfl
  have hcap : getClientReqs (incrementClientIdReq e.clientsReqs (some c)) (some c) =
      m + 1 := by
    rw [getClientReqs_inc _ _ htr, hgetm]
  have hrestore :
      decrementClientIdReq (incrementClientIdReq e.clientsReqs (some c)) (some c) =
        e.clientsReqs :=
    dec_inc_restore _ _ htr (Or.inr ⟨m, hlk, hm1⟩)
  refine ⟨?_, ?_, ?_⟩
  · -- save leg
    have hfs : fileStatus e (pathToURIComponent o.path) = none := by
      rw [fileStatus, hnosave, hnodel]
    have hstart : startSavingB o e =
        (.ok (), ⟨setMap e.savingFiles (pathToURIComponent o.path) 0,
                  e.deletingFiles,
                  incrementClientIdReq e.clientsReqs (some c),
                  ⟨e.kv.files, e.kv.chunks,
                   insertUri e.kv.unresolved (pathToURIComponent o.path),
                   e.kv.faults⟩⟩) := by
      rw [startSavingB, hcid, kvSetUnresolvedB, kvCall]
      simp only [hf]
    have hend : endSavingB o true
        (⟨setMap e.savingFiles (pathToURIComponent o.path) 0,
          e.deletingFiles,
          incrementClientIdReq e.clientsReqs (some c),
          ⟨e.kv.files, e.kv.chunks,
           insertUri e.kv.unresolved (pathToURIComponent o.path),
           e.kv.faults⟩⟩ : Engine) = (.ok (), e) := by
      rw [endSavingB]
      simp only [if_pos]
      rw [kvDelUnresolvedB, kvCall]
      simp only [hf]
      rw [erase_insertUri _ _ hunres, hcid, hrestore,
        delMap_setMap_of_absent _ _ _ hnosave]
      rw [← hf]
    rw [save]
    simp only [hfs, hmd, hva, hex]
    rw [if_neg (by simp)]
    rw [if_neg (by simp)]
    rw [if_neg (by simp)]
    rw [hstart]
    simp only [hmx, hcid]
    rw [if_pos (by rw [hcap]; simp only [Option.getD_some]; omega)]
    rw [hend]
    rfl
  · -- delete leg
    have hfs : fileStatus e (pathToURIComponent ro.path) = none := by
      rw [fileStatus, hronosave, hronodel]
    have hstart : startDeletingB ro e =
        (.ok (), ⟨e.savingFiles,
                  setMap e.deletingFiles (pathToURIComponent ro.path) 0,
                  incrementClientIdReq e.clientsReqs (some c),
                  ⟨e.kv.files, e.kv.chunks,
                   insertUri e.kv.unresolved (pathToURIComponent ro.path),
                   e.kv.faults⟩⟩) := by
      rw [startDeletingB, hrocid, kvSetUnresolvedB, kvCall]
      simp only [hf]
    have hend : endDeletingB ro true
        (⟨e.savingFiles,
          setMap e.deletingFiles (pathToURIComponent ro.path) 0,
          incrementClientIdReq e.clientsReqs (some c),
          ⟨e.kv.files, e.kv.chunks,
           insertUri e.kv.unresolved (pathToURIComponent ro.path),
           e.kv.faults⟩⟩ : Engine) = (.ok (), e) := by
      rw [endDeletingB]
      simp only [if_pos]
      rw [kvDelUnresolvedB, kvCall]
      simp only [hf]
      rw [erase_insertUri _ _ hrounres, hrocid, hrestore,
        delMap_setMap_of_absent _ _ _ hronodel]
      rw [← hf]
    rw [delete]
    simp only [hfs, hrova]
    rw [if_neg (by simp)]
    rw [deleteBody, hstart]
    simp only [hromx, hrocid]
    rw [if_pos (by rw [hcap]; simp only [Option.getD_some]; omega)]
    rw [hend]
    rfl
  · -- read stream pull leg
    rw [drainContentStream, hrocid, hromx]
    simp only []
    rw [if_pos (by rw [hcap]; simp only [Option.getD_some]; omega)]
    rw [hrestore]
    rfl

/-- Witness for C7: cap 1, the client (string "c") already holds one
slot; save, delete and the stream pull all return the cap error and
restore the state. -/
theorem claim7_witness :
    save (fun _ => 0)
        ⟨[[97]], .bytes [1], none, some (.str [99]), none, some 1, none, none⟩
        ⟨[], [], [([99], 1)], ⟨[], [], [], []⟩⟩ =
      (.ok (.inl (errStatus (pathToURIComponent [[97]]) [[97]] (.maxConcurrent 1))),
       ⟨[], [], [([99], 1)], ⟨[], [], [], []⟩⟩) ∧
    delete ⟨[[98]], some (.str [99]), none, some 1⟩
        ⟨[], [], [([99], 1)], ⟨[], [], [], []⟩⟩ =
      (.ok (some (errStatus (pathToURIComponent [[98]]) [[98]] (.maxConcurrent 1))),
       ⟨[], [], [([99], 1)], ⟨[], [], [], []⟩⟩) ∧
    drainContentStream ⟨[[98]], some (.str [99]), none, some 1⟩
        (pathToURIComponent [[98]]) ⟨[], [], [([99], 1)], ⟨[], [], [], []⟩⟩ =
      (.error (.maxConcurrent 1), ⟨[], [], [([99], 1)], ⟨[], [], [], []⟩⟩) :=
  claim7_concurrencyCap (fun _ => 0)
    ⟨[[97]], .bytes [1], none, some (.str [99]), none, some 1, none, none⟩
    ⟨[[98]], some (.str [99]), none, some 1⟩
    ⟨[], [], [([99], 1)], ⟨[], [], [], []⟩⟩ (.str [99]) 1
    rfl rfl (by decide) rfl rfl (by decide) (by decide) rfl rfl rfl rfl
    (by decide) (by decide) (by decide) (by decide) (by decide) (by decide) rfl

/-! ### Healthy-substrate evaluation (claim C5)

With an empty fault schedule every KV call succeeds; the lemmas below
show each operation then completes without raising and leaves the
schedule empty. -/

/-- The result did not raise and the fault schedule is still empty. -/
def noRaise {α : Type} (r : EMRes α) : Prop :=
  r.1.isOk = true ∧ r.2.kv.faults = []

theorem kvCall_nil {α : Type} (act : KvB → α × KvB) (e : Engine)
    (hf : e.kv.faults = []) :
    kvCall act e = (.ok (act e.kv).1, { e with kv := (act e.kv).2 }) := by
  rw [kvCall]
  simp only [hf]

theorem kvPutChunkB_nil (uri : List Nat) (i : Nat) (v : Bytes) (e : Engine)
    (hf : e.kv.faults = []) :
    ∃ e1 : Engine, kvPutChunkB uri i v e = (.ok (), e1) ∧ e1.kv.faults = [] := by
  rw [kvPutChunkB, kvCall_nil _ _ hf]
  exact ⟨_, rfl, hf⟩

theorem kvListChunksB_nil (uri : List Nat) (e : Engine) (hf : e.kv.faults = []) :
    ∃ e1 : Engine, kvListChunksB uri e =
      (.ok ((lookupMap e.kv.chunks uri).getD []), e1) ∧ e1.kv.faults = [] := by
  rw [kvListChunksB, kvCall_nil _ _ hf]
  exact ⟨_, rfl, hf⟩

theorem kvDelChunkB_nil (uri : List Nat) (i : Nat) (e : Engine)
    (hf : e.kv.faults = []) :
    ∃ e1 : Engine, kvDelChunkB uri i e = (.ok (), e1) ∧ e1.kv.faults = [] := by
  rw [kvDelChunkB, kvCall_nil _ _ hf]
  exact ⟨_, rfl, hf⟩

theorem kvGetFileB_nil (p : List (List Nat)) (e : Engine) (hf : e.kv.faults = []) :
    ∃ e1 : Engine, kvGetFileB p e = (.ok (lookupMap e.kv.files p), e1) ∧
      e1.kv.faults = [] ∧ e1.kv.files = e.kv.files := by
  rw [kvGetFileB, kvCall_nil _ _ hf]
  exact ⟨_, rfl, hf, rfl⟩

theorem kvSetFileB_nil (p : List (List Nat)) (v : FileB) (e : Engine)
    (hf : e.kv.faults = []) :
    ∃ e1 : Engine, kvSetFileB p v e = (.ok (), e1) ∧ e1.kv.faults = [] ∧
      e1.kv.files = setMap e.kv.files p v := by
  rw [kvSetFileB, kvCall_nil _ _ hf]
  exact ⟨_, rfl, hf, rfl⟩

theorem kvDelFileB_nil (p : List (List Nat)) (e : Engine) (hf : e.kv.faults = []) :
    ∃ e1 : Engine, kvDelFileB p e = (.ok (), e1) ∧ e1.kv.faults = [] := by
  rw [kvDelFileB, kvCall_nil _ _ hf]
  exact ⟨_, rfl, hf⟩

theorem kvListFilesB_nil (p : List (List Nat)) (e : Engine) (hf : e.kv.faults = []) :
    ∃ e1 : Engine, kvListFilesB p e =
      (.ok (e.kv.files.filter (fun en => p.isPrefixOf en.1)), e1) ∧
      e1.kv.faults = [] := by
  rw [kvListFilesB, kvCall_nil _ _ hf]
  exact ⟨_, rfl, hf⟩

theorem kvSetUnresolvedB_nil (uri : List Nat) (e : Engine) (hf : e.kv.faults = []) :
    ∃ e1 : Engine, kvSetUnresolvedB uri e = (.ok (), e1) ∧ e1.kv.faults = [] := by
  rw [kvSetUnresolvedB, kvCall_nil _ _ hf]
  exact ⟨_, rfl, hf⟩

theorem kvDelUnresolvedB_nil (uri : List Nat) (e : Engine) (hf : e.kv.faults = []) :
    ∃ e1 : Engine, kvDelUnresolvedB uri e = (.ok (), e1) ∧ e1.kv.faults = [] ∧
      e1.kv.files = e.kv.files := by
  rw [kvDelUnresolvedB, kvCall_nil _ _ hf]
  exact ⟨_, rfl, hf, rfl⟩

theorem startSavingB_nil (o : SaveOptions) (e : Engine) (hf : e.kv.faults = []) :
    ∃ e1 : Engine, startSavingB o e = (.ok (), e1) ∧ e1.kv.faults = [] := by
  rw [startSavingB]
  exact kvSetUnresolvedB_nil _ _ (by exact hf)

theorem endSavingB_nil (o : SaveOptions) (resolved : Bool) (e : Engine)
    (hf : e.kv.faults = []) :
    ∃ e1 : Engine, endSavingB o resolved e = (.ok (), e1) ∧ e1.kv.faults = [] ∧
      e1.kv.files = e.kv.files := by
  rw [endSavingB]
  cases resolved with
  | false => exact ⟨_, rfl, hf, rfl⟩
  | true =>
    obtain ⟨e1, hdel, hf1, hfi1⟩ :=
      kvDelUnresolvedB_nil (pathToURIComponent o.path) e hf
    rw [hdel]
    exact ⟨_, rfl, hf1, hfi1⟩

theorem startDeletingB_nil (o : ReadOptions) (e : Engine) (hf : e.kv.faults = []) :
    ∃ e1 : Engine, startDeletingB o e = (.ok (), e1) ∧ e1.kv.faults = [] := by
  rw [startDeletingB]
  exact kvSetUnresolvedB_nil _ _ (by exact hf)

theorem endDeletingB_nil (o : ReadOptions) (resolved : Bool) (e : Engine)
    (hf : e.kv.faults = []) :
    ∃ e1 : Engine, endDeletingB o resolved e = (.ok (), e1) ∧ e1.kv.faults = [] := by
  rw [endDeletingB]
  cases resolved with
  | false => exact ⟨_, rfl, hf⟩
  | true =>
    obtain ⟨e1, hdel, hf1, -⟩ := kvDelUnresolvedB_nil (pathToURIComponent o.path) e hf
    rw [hdel]
    exact ⟨_, rfl, hf1⟩

theorem saveChunksB_nil (uri : List Nat) (max : Nat) :
    ∀ (cs : List Bytes) (size count : Nat) (e : Engine), e.kv.faults = [] →
    ∃ e1 : Engine, saveChunksB uri max cs size count e =
      (.ok (size + sumLen (writtenChunks max cs size),
            count + (writtenChunks max cs size).length,
            decide ((writtenChunks max cs size).length < cs.length)), e1) ∧
      e1.kv.faults = [] := by
  intro cs
  induction cs with
  | nil =>
    intro size count e hf
    refine ⟨e, ?_, hf⟩
    simp [saveChunksB, writtenChunks, sumLen]
  | cons c cs ih =>
    intro size count e hf
    rw [saveChunksB]
    by_cases hmax : max < size
    · rw [if_pos hmax]
      refine ⟨e, ?_, hf⟩
      rw [writtenChunks, if_pos hmax]
      simp [sumLen]
    · rw [if_neg hmax]
      obtain ⟨e1, hput, hf1⟩ := kvPutChunkB_nil uri (count + 1) c e hf
      rw [hput]
      simp only []
      obtain ⟨e2, hrec, hf2⟩ := ih (size + c.length) (count + 1)
        { e1 with savingFiles := setMap e1.savingFiles uri (size + c.length) }
        (by exact hf1)
      rw [hrec]
      refine ⟨e2, ?_, hf2⟩
      rw [writtenChunks, if_neg hmax]
      rw [sumLen_cons]
      simp only [List.length_cons, Prod.mk.injEq, Except.ok.injEq]
      refine ⟨⟨by omega, by omega, decide_eq_decide.mpr (by omega)⟩, by trivial⟩

theorem delChunkListB_nil (uri : List Nat) :
    ∀ (st : ChunkStore) (e : Engine), e.kv.faults = [] →
    ∃ e1 : Engine, delChunkListB uri st e = (.ok (), e1) ∧ e1.kv.faults = [] := by
  intro st
  induction st with
  | nil => intro e hf; exact ⟨e, rfl, hf⟩
  | cons en st ih =>
    intro e hf
    obtain ⟨i, v⟩ := en
    obtain ⟨e1, hdel, hf1⟩ := kvDelChunkB_nil uri i e hf
    rw [delChunkListB, hdel]
    exact ih e1 hf1

theorem retractB_nil (uri : List Nat) (next : Nat) (e : Engine)
    (hf : e.kv.faults = []) :
    ∃ e1 : Engine, retractB uri next e = (.ok (), e1) ∧ e1.kv.faults = [] := by
  obtain ⟨e1, hlist, hf1⟩ := kvListChunksB_nil uri e hf
  rw [retractB, hlist]
  exact delChunkListB_nil uri _ e1 hf1

theorem deleteChunksListB_nil (uri : List Nat) :
    ∀ (st : ChunkStore) (e : Engine), e.kv.faults = [] →
    ∃ e1 : Engine, deleteChunksListB uri st e = (.ok (), e1) ∧ e1.kv.faults = [] := by
  intro st
  induction st with
  | nil => intro e hf; exact ⟨e, rfl, hf⟩
  | cons en st ih =>
    intro e hf
    obtain ⟨i, v⟩ := en
    obtain ⟨e1, hdel, hf1⟩ := kvDelChunkB_nil uri i e hf
    rw [deleteChunksListB, hdel]
    exact ih _ (by exact hf1)

theorem deleteChunksB_nil (uri : List Nat) (e : Engine) (hf : e.kv.faults = []) :
    ∃ e1 : Engine, deleteChunksB uri e = (.ok (), e1) ∧ e1.kv.faults = [] := by
  obtain ⟨e1, hlist, hf1⟩ := kvListChunksB_nil uri e hf
  rw [deleteChunksB, hlist]
  exact deleteChunksListB_nil uri _ e1 hf1

theorem saveBody_nil (o : SaveOptions) (uri : List Nat) (e : Engine)
    (hf : e.kv.faults = []) :
    ∃ (f : FileB) (e1 : Engine), saveBody o uri e = (.ok (.inr f), e1) ∧
      e1.kv.faults = [] ∧ f.metadata = some (o.metadata.getD emptyMeta) ∧
      f.path = o.path ∧ lookupMap e1.kv.files o.path = some f := by
  rw [saveBody]
  obtain ⟨e1, hloop, hf1⟩ := saveChunksB_nil uri (o.maxFileSizeBytes.getD maxSafeInteger)
    (match o.content with
     | .str s => toChunks (utf8Encode s)
     | .bytes b => toChunks b
     | .stream b => readerChunks b) 0 0 e hf
  rw [hloop]
  simp only []
  obtain ⟨e2, hret, hf2⟩ := retractB_nil uri _ e1 hf1
  rw [hret]
  simp only []
  obtain ⟨e3, hset, hf3, hfi3⟩ := kvSetFileB_nil o.path _ e2 hf2
  rw [hset]
  simp only []
  obtain ⟨e4, hend, hf4, hfi4⟩ := endSavingB_nil o true e3 hf3
  rw [hend]
  refine ⟨_, e4, rfl, hf4, rfl, rfl, ?_⟩
  rw [hfi4, hfi3]
  exact lookupMap_setMap_self _ _ _

theorem save_nil (jsonSize : Meta → Nat) (o : SaveOptions) (e : Engine)
    (hf : e.kv.faults = []) : noRaise (save jsonSize o e) := by
  rw [save]
  cases hfs : fileStatus e (pathToURIComponent o.path) with
  | some st => exact ⟨rfl, hf⟩
  | none =>
    simp only []
    split
    · exact ⟨rfl, hf⟩
    · split
      · exact ⟨rfl, hf⟩
      · split
        · exact ⟨rfl, hf⟩
        · obtain ⟨e1, hst, hf1⟩ := startSavingB_nil o e hf
          rw [hst]
          simp only []
          split
          · obtain ⟨e2, hend, hf2, -⟩ := endSavingB_nil o true e1 hf1
            rw [hend]
            exact ⟨rfl, hf2⟩
          · obtain ⟨f, e2, hbody, hf2, -, -, -⟩ :=
              saveBody_nil o (pathToURIComponent o.path) e1 hf1
            rw [hbody]
            exact ⟨rfl, hf2⟩

theorem read_nil (o : ReadOptions) (e : Engine) (hf : e.kv.faults = []) :
    noRaise (read o e) := by
  rw [read]
  cases hfs : fileStatus e (pathToURIComponent o.path) with
  | some st => exact ⟨rfl, hf⟩
  | none =>
    simp only []
    split
    · exact ⟨rfl, hf⟩
    · obtain ⟨e1, hget, hf1, -⟩ := kvGetFileB_nil o.path e hf
      rw [hget]
      cases lookupMap e.kv.files o.path with
      | none => exact ⟨rfl, hf1⟩
      | some f => exact ⟨rfl, hf1⟩

theorem readDir_nil (o : ReadOptions) (e : Engine) (hf : e.kv.faults = []) :
    noRaise (readDir o e) := by
  rw [readDir]
  split
  · exact ⟨rfl, hf⟩
  · obtain ⟨e1, hlist, hf1⟩ := kvListFilesB_nil o.path e hf
    rw [hlist]
    exact ⟨rfl, hf1⟩

theorem delete_ok (o : ReadOptions) (e : Engine) : ((delete o e).1).isOk = true := by
  rw [delete]
  cases hfs : fileStatus e (pathToURIComponent o.path) with
  | some st => rfl
  | none =>
    simp only []
    split
    · rfl
    · rcases hdb : deleteBody o (pathToURIComponent o.path) e with ⟨r, e1⟩
      cases r with
      | ok v => rfl
      | error m =>
        rcases he : endDeletingB o false e1 with ⟨r2, e2⟩
        cases r2 with
        | ok v => rfl
        | error m2 => rfl

theorem deleteDirLoop_ok (o : ReadOptions) :
    ∀ (entries : List (List (List Nat) × FileB)) (acc : List FileStatus) (e : Engine),
    ((deleteDirLoop o entries acc e).1).isOk = true := by
  intro entries
  induction entries with
  | nil => intro acc e; rfl
  | cons en rest ih =>
    intro acc e
    obtain ⟨p, fb⟩ := en
    rw [deleteDirLoop]
    rcases hd : delete { o with path := p } e with ⟨r, e1⟩
    cases r with
    | error m =>
      have hok := delete_ok { o with path := p } e
      rw [hd] at hok
      exact Bool.noConfusion hok
    | ok v =>
      cases v with
      | some st => exact ih _ _
      | none => exact ih _ _

theorem deleteDir_ok (o : ReadOptions) (e : Engine) (hf : e.kv.faults = []) :
    ((deleteDir o e).1).isOk = true := by
  rw [deleteDir]
  split
  · rfl
  · obtain ⟨e1, hlist, hf1⟩ := kvListFilesB_nil o.path e hf
    rw [hlist]
    exact deleteDirLoop_ok o _ [] e1

/-- C5 counterexample: with one substrate fault pending, read — whose
kv.get is not wrapped in try/catch (mod.ts 308) — propagates the
substrate exception instead of returning an error FileStatus. -/
theorem claim5_counterexample :
    (read ⟨[[97]], none, none, none⟩
        ⟨[], [], [], ⟨[], [], [], [true]⟩⟩).1 = .error .substrate := by
  rfl

/-- C5 (amended): with a healthy substrate save, read, readDir, delete
and deleteDir complete without raising; each listed validation failure
(oversized metadata, forbidden access, disallowed extension) comes back
as a FileStatus with status error and the matching msg, leaving the
state untouched; delete never raises even under substrate faults (its
body is wrapped whole in try/catch); setMetadata alone raises on
oversized metadata.  Substrate faults CAN propagate out of save, read,
readDir and deleteDir (see the counterexample), and the incomplete flag
is carried on the saved record rather than an error status. -/
theorem claim5_raisePolicy (jsonSize : Meta → Nat) (o : SaveOptions)
    (ro : ReadOptions) (md : Meta) (va : List (List Nat) → Bool)
    (exts : List (List Nat)) (e : Engine) (hf : e.kv.faults = []) :
    noRaise (save jsonSize o e) ∧
    noRaise (read ro e) ∧
    noRaise (readDir ro e) ∧
    ((deleteDir ro e).1).isOk = true ∧
    (∀ e2 : Engine, ((delete ro e2).1).isOk = true) ∧
    (61440 < jsonSize md →
      setMetadata jsonSize ro.path md e = (.error .metadataTooLarge, e)) ∧
    (fileStatus e (pathToURIComponent o.path) = none → o.metadata = some md →
      61440 < jsonSize md →
      save jsonSize o e = (.ok (.inl (errStatus (pathToURIComponent o.path)
        o.path .metadataTooLarge)), e)) ∧
    (fileStatus e (pathToURIComponent o.path) = none → o.metadata = none →
      o.validateAccess = some va → va o.path = false →
      save jsonSize o e = (.ok (.inl (errStatus (pathToURIComponent o.path)
        o.path .forbidden)), e)) ∧
    (fileStatus e (pathToURIComponent ro.path) = none →
      ro.validateAccess = some va → va ro.path = false →
      read ro e = (.ok (.status (errStatus (pathToURIComponent ro.path)
        ro.path .forbidden)), e) ∧
      delete ro e = (.ok (some (errStatus (pathToURIComponent ro.path)
        ro.path .forbidden)), e)) ∧
    (ro.validateAccess = some va → va ro.path = false →
      readDir ro e = (.ok ⟨[.inl (errStatus (pathToURIComponent ro.path)
        ro.path .forbidden)], 0⟩, e) ∧
      deleteDir ro e = (.ok [errStatus (pathToURIComponent ro.path)
        ro.path .forbidden], e)) ∧
    (fileStatus e (pathToURIComponent o.path) = none → o.metadata = none →
      o.validateAccess = none → o.allowedExtensions = some exts → exts ≠ [] →
      exts.contains (fileExtOf o.path) = false →
      save jsonSize o e = (.ok (.inl (errStatus (pathToURIComponent o.path) o.path
        (.extNotAllowed (fileExtOf o.path) ((o.path.getLast?).getD []) exts))), e)) := by
  refine ⟨save_nil jsonSize o e hf, read_nil ro e hf, readDir_nil ro e hf,
    deleteDir_ok ro e hf, fun e2 => delete_ok ro e2, ?_, ?_, ?_, ?_, ?_, ?_⟩
  · intro h
    rw [setMetadata, if_pos h]
  · intro hfs hmd hbig
    rw [save]
    simp only [hfs, hmd]
    rw [if_pos (decide_eq_true hbig)]
  · intro hfs hmd hva hvf
    rw [save]
    simp only [hfs, hmd]
    rw [if_neg (by simp)]
    simp only [hva, Option.getD_some]
    rw [if_pos hvf]
  · intro hfs hva hvf
    constructor
    · rw [read]
      simp only [hfs, hva, Option.getD_some]
      rw [if_pos hvf]
    · rw [delete]
      simp only [hfs, hva, Option.getD_some]
      rw [if_pos hvf]
  · intro hva hvf
    constructor
    · rw [readDir]
      simp only [hva, Option.getD_some]
      rw [if_pos hvf]
    · rw [deleteDir]
      simp only [hva, Option.getD_some]
      rw [if_pos hvf]
  · intro hfs hmd hva hex hne hcon
    rw [save]
    simp only [hfs, hmd]
    rw [if_neg (by simp)]
    simp only [hva, Option.getD_none]
    rw [if_neg (by simp)]
    simp only [hex, Option.getD_some]
    rw [if_pos ⟨hne, hcon⟩]

/-- Witness for C5: a clean engine, a serializer reporting 70000 bytes;
save completes without raising, setMetadata raises metadataTooLarge,
and save on oversized metadata returns the error status. -/
theorem claim5_witness :
    noRaise (save (fun _ => 70000)
      ⟨[[97]], .bytes [1], some [], none, none, none, none, none⟩
      ⟨[], [], [], ⟨[], [], [], []⟩⟩) ∧
    setMetadata (fun _ => 70000) [[97]] [] ⟨[], [], [], ⟨[], [], [], []⟩⟩ =
      (.error .metadataTooLarge, ⟨[], [], [], ⟨[], [], [], []⟩⟩) ∧
    save (fun _ => 70000) ⟨[[97]], .bytes [1], some [], none, none, none, none, none⟩
        ⟨[], [], [], ⟨[], [], [], []⟩⟩ =
      (.ok (.inl (errStatus (pathToURIComponent [[97]]) [[97]] .metadataTooLarge)),
       ⟨[], [], [], ⟨[], [], [], []⟩⟩) := by
  refine ⟨?_, ?_, ?_⟩
  · exact (claim5_raisePolicy (fun _ => 70000)
      ⟨[[97]], .bytes [1], some [], none, none, none, none, none⟩
      ⟨[[97]], none, none, none⟩ [] (fun _ => false) [[120]]
      ⟨[], [], [], ⟨[], [], [], []⟩⟩ rfl).1
  · exact (claim5_raisePolicy (fun _ => 70000)
      ⟨[[97]], .bytes [1], some [], none, none, none, none, none⟩
      ⟨[[97]], none, none, none⟩ [] (fun _ => false) [[120]]
      ⟨[], [], [], ⟨[], [], [], []⟩⟩ rfl).2.2.2.2.2.1 (by decide)
  · exact (claim5_raisePolicy (fun _ => 70000)
      ⟨[[97]], .bytes [1], some [], none, none, none, none, none⟩
      ⟨[[97]], none, none, none⟩ [] (fun _ => false) [[120]]
      ⟨[], [], [], ⟨[], [], [], []⟩⟩ rfl).2.2.2.2.2.2.1 rfl rfl (by decide)

/-- C9: a successful save without a metadata option stores the empty
object (`options.metadata || ` empty object, mod.ts 269): the returned
record and the stored record both carry metadata = the empty object,
getMetadata on the saved path yields the empty object, and in every
store whose records all carry metadata (as save guarantees) getMetadata
returns undefined exactly when no record exists at the path. -/
theorem claim9_metadataDefault (jsonSize : Meta → Nat) (o : SaveOptions)
    (e e1 : Engine) (f : FileB) (hmd : o.metadata = none)
    (hf : e.kv.faults = [])
    (hsave : save jsonSize o e = (.ok (.inr f), e1)) :
    f.metadata = some emptyMeta ∧
    lookupMap e1.kv.files o.path = some f ∧
    (getMetadata o.path e1).1 = .ok (some emptyMeta) ∧
    (∀ (e3 : Engine) (p2 : List (List Nat)), e3.kv.faults = [] →
      (∀ (p3 : List (List Nat)) (fb : FileB),
        lookupMap e3.kv.files p3 = some fb → fb.metadata ≠ none) →
      ((getMetadata p2 e3).1 = .ok none ↔ lookupMap e3.kv.files p2 = none)) := by
  have hn : e1.kv.faults = [] := by
    have hnr := (save_nil jsonSize o e hf).2
    rw [hsave] at hnr
    exact hnr
  have hmain : f.metadata = some emptyMeta ∧ lookupMap e1.kv.files o.path = some f := by
    rw [save] at hsave
    cases hfs : fileStatus e (pathToURIComponent o.path) with
    | some st =>
      rw [hfs] at hsave
      exact absurd hsave (by simp)
    | none =>
      rw [hfs] at hsave
      simp only [] at hsave
      rw [hmd] at hsave
      simp only [] at hsave
      rw [if_neg (by simp)] at hsave
      split at hsave
      · exact absurd hsave (by simp)
      · split at hsave
        · exact absurd hsave (by simp)
        · obtain ⟨e1x, hst, hf1⟩ := startSavingB_nil o e hf
          rw [hst] at hsave
          simp only [] at hsave
          split at hsave
          · obtain ⟨e2x, hend, -, -⟩ := endSavingB_nil o true e1x hf1
            rw [hend] at hsave
            simp only [] at hsave
            exact absurd hsave (by simp)
          · obtain ⟨fB, e2x, hbody, hf2, hmeta, hpath, hlk⟩ :=
              saveBody_nil o (pathToURIComponent o.path) e1x hf1
            rw [hbody] at hsave
            simp only [Prod.mk.injEq, Except.ok.injEq, Sum.inr.injEq] at hsave
            obtain ⟨hfeq, heeq⟩ := hsave
            subst hfeq
            subst heeq
            constructor
            · rw [hmeta, hmd]
              rfl
            · exact hlk
  refine ⟨hmain.1, hmain.2, ?_, ?_⟩
  · obtain ⟨e4, hget, -, -⟩ := kvGetFileB_nil o.path e1 hn
    rw [getMetadata, hget]
    simp only [hmain.2, Option.some_bind, hmain.1]
  · intro e3 p2 hf3 hinv
    obtain ⟨e4, hget, -, -⟩ := kvGetFileB_nil p2 e3 hf3
    rw [getMetadata, hget]
    simp only []
    cases hl : lookupMap e3.kv.files p2 with
    | none => simp
    | some fb =>
      have hne := hinv p2 fb hl
      simp [hne]

/-- Witness for C9: saving one byte at path ["a"] with no metadata
option on a clean engine stores the record with the empty object as
metadata, and getMetadata finds it. -/
theorem claim9_witness :
    (⟨[[97]], [], 1, [97], some emptyMeta⟩ : FileB).metadata = some emptyMeta ∧
    lookupMap (⟨[], [], [],
        ⟨[([[97]], ⟨[[97]], [], 1, [97], some emptyMeta⟩)],
         [([97], [(1, [1])])], [], []⟩⟩ : Engine).kv.files [[97]] =
      some ⟨[[97]], [], 1, [97], some emptyMeta⟩ ∧
    (getMetadata [[97]] ⟨[], [], [],
        ⟨[([[97]], ⟨[[97]], [], 1, [97], some emptyMeta⟩)],
         [([97], [(1, [1])])], [], []⟩⟩).1 = .ok (some emptyMeta) := by
  have h := claim9_metadataDefault (fun _ => 0)
    ⟨[[97]], .bytes [1], none, none, none, none, none, none⟩
    ⟨[], [], [], ⟨[], [], [], []⟩⟩
    ⟨[], [], [],
      ⟨[([[97]], ⟨[[97]], [], 1, [97], some emptyMeta⟩)],
       [([97], [(1, [1])])], [], []⟩⟩
    ⟨[[97]], [], 1, [97], some emptyMeta⟩ rfl rfl rfl
  exact ⟨h.1, h.2.1, h.2.2.1⟩

end KvFs
